import Mathlib

/-!
Verification development for the serpent CLI framework (github.com/bketelsen/serpent).

The Go sources are shallowly embedded:
  * `option.go` (bundled at the end of yaml_test.go in the snapshot): `ValueSource`,
    `Option`, `OptionSet`, `OptionSet.ParseEnv`, `OptionSet.SetDefaults`, `ByFlag`.
  * `command.go` (src/unnamed/part_001): `Command`, `Invocation.run`,
    `copyFlagSetWithout`, the flag-merge loop, `findArg`, required-option
    enforcement, version printing and help dispatch.
  * `help.go`: `DefaultHelpFn` / `UnknownSubcommandError`.

`pflag.Value` identity (aliased options sharing one value slot) is embedded as an
explicit identity key `valueId : Nat` into a store `Vals : Nat → String`; the
polymorphic `Set(string) error` capability of a slot is embedded as a success
predicate `SetOk : Nat → String → Bool` (`Set` stores the raw string when it
succeeds and reports a parse error otherwise).  The pflag library itself and the
yaml codec are external collaborators of the repository and are modelled from the
spec where needed (see the doc comments on `parseArgs` and `applyYAMLList`).
-/

namespace Serpent

/-- Provenance tag of an option's current value (`ValueSource` in option.go). -/
inductive VSource where
  | none
  | flag
  | env
  | yaml
  | default
deriving DecidableEq, Repr

/-- Position of a source in `valueSourcePriority` (option.go): `slices.Index`
of `[flag, env, yaml, default, none]`; smaller index = higher priority. -/
def srcIdx : VSource → Nat
  | .flag => 0
  | .env => 1
  | .yaml => 2
  | .default => 3
  | .none => 4

/-- One environment variable, as consumed by `OptionSet.ParseEnv` (`v.Name`,
`v.Value` in option.go). -/
structure EnvVar where
  name : String
  value : String
deriving DecidableEq, Repr

/-- The `Option` record of option.go restricted to the fields resolution and
dispatch read.  `valueId` is the identity of the shared `pflag.Value` slot
(`Value` is an interface pointer in Go; aliased options carry the same id).
`defVal` embeds the `Default` field, `noOptDefVal` the `NoOptDefValuer`
capability of the slot used when building the flag set. -/
structure Opt where
  name : String := ""
  flag : String := ""
  flagShorthand : String := ""
  env : String := ""
  yamlKey : String := ""
  defVal : String := ""
  required : Bool := false
  noOptDefVal : String := ""
  valueId : Nat := 0
  valueSource : VSource := .none
deriving DecidableEq, Repr

/-- Contents of every value slot, keyed by slot identity. -/
abbrev Vals := Nat → String

/-- Whether `Value.Set` succeeds on a raw string, per slot identity. -/
abbrev SetOk := Nat → String → Bool

/-- Mutate one value slot (a successful `Value.Set(raw)`). -/
def setVal (v : Vals) (i : Nat) (x : String) : Vals :=
  fun j => if j = i then x else v j

/-- Resolution state: the option list of an `OptionSet` plus the value store. -/
structure RState where
  opts : List Opt
  vals : Vals

/-- Lookup in the Go map built by `ParseEnv` from the env list
(`envs[v.Name] = v.Value` in iteration order, so the last occurrence wins). -/
def envMapGet (vs : List EnvVar) (n : String) : Option String :=
  (vs.reverse.find? (fun v => v.name == n)).map (fun v => v.value)

/-- The environment lookup of `ParseEnv`: the bound name first and, only when it
is entirely absent, the `HOMEBREW_`-prefixed fallback name. -/
def envValFor (envs : List EnvVar) (e : String) : Option String :=
  match envMapGet envs e with
  | Option.some v => Option.some v
  | Option.none => envMapGet envs ("HOMEBREW_" ++ e)

/-- Loop body of `OptionSet.ParseEnv` for one option: returns the updated
option, the updated store and the parse failures contributed by this option.
Mirrors option.go: empty binding and absent/empty values are skipped;
otherwise `ValueSource` is set to `env` before `Value.Set` runs, and a `Set`
failure is collected without undoing the provenance. -/
def envStep (setOk : SetOk) (envs : List EnvVar) (o : Opt) (vals : Vals) :
    Opt × Vals × List String :=
  if o.env = "" then (o, vals, [])
  else
    match envValFor envs o.env with
    | Option.none => (o, vals, [])
    | Option.some v =>
      if v = "" then (o, vals, [])
      else
        if setOk o.valueId v then
          ({ o with valueSource := .env }, setVal vals o.valueId v, [])
        else
          ({ o with valueSource := .env }, vals, ["parse " ++ o.name])

/-- The loop of `OptionSet.ParseEnv` over the whole option list, threading the
value store and joining the collected errors. -/
def parseEnvList (setOk : SetOk) (envs : List EnvVar) :
    List Opt → Vals → List Opt × Vals × List String
  | [], vals => ([], vals, [])
  | o :: rest, vals =>
    let s := envStep setOk envs o vals
    let r := parseEnvList setOk envs rest s.2.1
    (s.1 :: r.1, r.2.1, s.2.2 ++ r.2.2)

/-- `OptionSet.ParseEnv` (option.go): returns the updated state and the joined
multierror as a list (empty list = nil error). -/
def ParseEnv (setOk : SetOk) (envs : List EnvVar) (rs : RState) :
    RState × List String :=
  let r := parseEnvList setOk envs rs.opts rs.vals
  (⟨r.1, r.2.1⟩, r.2.2)

/-- The fold computing `opts[0].ValueSource` after the priority sort of
`SetDefaults`: the highest-priority (minimal `srcIdx`) source in the group. -/
def winningSourceOf (g : List Opt) : VSource :=
  g.foldl (fun acc o => if srcIdx o.valueSource < srcIdx acc then o.valueSource else acc) .none

/-- The `optWithDefault` selection loop of `SetDefaults`: picks the first
non-empty default literal of the group and collects a conflict error for every
member whose non-empty default differs from the current pick. -/
def pickDefault (g : List Opt) : Option Opt × List String :=
  g.foldl
    (fun acc o =>
      if o.defVal = "" then acc
      else
        match acc.1 with
        | Option.none => (Option.some o, acc.2)
        | Option.some c =>
          if c.defVal ≠ o.defVal then (Option.some c, acc.2 ++ ["conflict " ++ o.name])
          else (Option.some o, acc.2))
    (Option.none, [])

/-- One iteration of the per-value-group loop of `SetDefaults`.  If any member
already carries a source, that (highest-priority) source is propagated to the
whole group and no default is applied; otherwise the picked default is applied
through `Value.Set` and every member is marked `ValueSourceDefault`.  The Go
code iterates a `map[pflag.Value][]*Option` whose order only affects the order
of the joined error list, never the final state. -/
def applyGroup (setOk : SetOk) (acc : RState × List String) (id : Nat) :
    RState × List String :=
  let st := acc.1
  let g := st.opts.filter (fun o => o.valueId == id)
  let w := winningSourceOf g
  if w ≠ .none then
    (⟨st.opts.map (fun o => if o.valueId = id then { o with valueSource := w } else o),
      st.vals⟩, acc.2)
  else
    let p := pickDefault g
    match p.1 with
    | Option.none => (st, acc.2 ++ p.2)
    | Option.some c =>
      let ok := setOk id c.defVal
      (⟨st.opts.map (fun o => if o.valueId = id then { o with valueSource := .default } else o),
        if ok then setVal st.vals id c.defVal else st.vals⟩,
        acc.2 ++ p.2 ++ (if ok then [] else ["parse " ++ c.name]))

/-- The distinct value-slot identities of an option list (the key set of the
`groupByValue` map in `SetDefaults`). -/
def dedupIds (opts : List Opt) : List Nat :=
  (opts.map (fun o => o.valueId)).dedup

/-- `OptionSet.SetDefaults` (option.go): group options by value identity, then
apply `applyGroup` to every group.  Options with a nil `Value` cannot arise in
this embedding (every `Opt` carries a `valueId`), so that error branch is not
modelled. -/
def SetDefaults (setOk : SetOk) (rs : RState) : RState × List String :=
  (dedupIds rs.opts).foldl (applyGroup setOk) (rs, [])

/-- A parsed config document, as path-to-raw-value pairs (the result of
unmarshaling the YAML file referenced by a `YAMLConfigPath` option). -/
abbrev YDoc := List (String × String)

/-- Value stored in a config document at a dotted option path. -/
def ydocGet (doc : YDoc) (k : String) : Option String :=
  (doc.find? (fun e => e.1 == k)).map (fun e => e.2)

/-- Modelled from the spec: `OptionSet.UnmarshalYAML` (yaml.go) is not in the
source snapshot.  Per spec section 4.2 and dispatch step 6, the config stage
applies the document value at an option's config path to every option that has
a config path, skipping options already resolved by a higher-priority source
(flag or env); applied options are marked `ValueSource = yaml`, absence of the
path is not an error, and per-option parse failures are collected. -/
def yamlStep (setOk : SetOk) (doc : YDoc) (o : Opt) (vals : Vals) :
    Opt × Vals × List String :=
  if o.yamlKey = "" then (o, vals, [])
  else if o.valueSource = .flag ∨ o.valueSource = .env then (o, vals, [])
  else
    match ydocGet doc o.yamlKey with
    | Option.none => (o, vals, [])
    | Option.some v =>
      if setOk o.valueId v then
        ({ o with valueSource := .yaml }, setVal vals o.valueId v, [])
      else
        ({ o with valueSource := .yaml }, vals, ["parse " ++ o.name])

/-- Modelled from the spec: the config-application loop over the option list
(see `yamlStep`). -/
def applyYAMLList (setOk : SetOk) (doc : YDoc) :
    List Opt → Vals → List Opt × Vals × List String
  | [], vals => ([], vals, [])
  | o :: rest, vals =>
    let s := yamlStep setOk doc o vals
    let r := applyYAMLList setOk doc rest s.2.1
    (s.1 :: r.1, r.2.1, s.2.2 ++ r.2.2)

/-- One entry of a `pflag.FlagSet`, as built by `OptionSet.FlagSet()`. -/
structure PFlag where
  name : String
  shorthand : String := ""
  noOptDefVal : String := ""
  valueId : Nat := 0
deriving DecidableEq, Repr

/-- `OptionSet.FlagSet()` (option.go): one flag per option with a non-empty
`Flag` name, carrying the slot identity and the no-argument default of the
slot's `NoOptDefValuer` capability. -/
def flagSetOf (opts : List Opt) : List PFlag :=
  opts.filterMap (fun o =>
    if o.flag = "" then Option.none
    else Option.some
      { name := o.flag, shorthand := o.flagShorthand,
        noOptDefVal := o.noOptDefVal, valueId := o.valueId })

/-- `copyFlagSetWithout` (command.go): rebuild a flag set keeping every flag
whose name differs from `without`. -/
def copyFlagSetWithout (fs : List PFlag) (without : String) : List PFlag :=
  fs.filter (fun f => f.name ≠ without)

/-- `pflag.FlagSet.Lookup` by long name. -/
def lookupFlag (fs : List PFlag) (n : String) : Option PFlag :=
  fs.find? (fun f => f.name == n)

/-- The flag-merge loop of `Invocation.run` (command.go lines 440-445): for
each flag of the current command, if the accumulated set already has a flag of
that name, rebuild the set without it, then add the new flag. -/
def mergeFlags (acc : List PFlag) (toAdd : List PFlag) : List PFlag :=
  toAdd.foldl
    (fun acc2 f =>
      (if (lookupFlag acc2 f.name).isSome then copyFlagSetWithout acc2 f.name else acc2) ++ [f])
    acc

/-- Errors produced by flag parsing: `pflag.ErrHelp` and the fatal parse
errors. -/
inductive FlagErr where
  | help
  | unknownFlag (arg : String)
  | needsValue (arg : String)
  | invalidValue (flagName : String) (raw : String)
deriving DecidableEq, Repr

/-- Result of one `pflag.FlagSet.Parse` call: the updated value store, the
names of the flags whose `Changed` bit was set, the positional residue, and
the terminating error if any. -/
structure ParseOut where
  vals : Vals
  changed : List String
  positionals : List String
  err : Option FlagErr

/-- Classification of one token (with lookahead into the remaining vector)
during flag parsing. -/
inductive StepRes where
  | done (positionals : List String)
  | fail (e : FlagErr)
  | assign (f : PFlag) (nm : String) (v : String) (rest2 : List String)
  | pos (tok : String) (rest2 : List String)
deriving Repr

/-- Prefix test via the character lists (the semantics of Go's
`strings.HasPrefix`). -/
def strPre (pre s : String) : Bool := pre.data.isPrefixOf s.data

/-- Character membership via the character list. -/
def strCh (s : String) (c : Char) : Bool := s.data.contains c

/-- `takeWhile` on a string via its character list. -/
def strTakeW (p : Char → Bool) (s : String) : String := (s.data.takeWhile p).asString

/-- `dropWhile` on a string via its character list. -/
def strDropW (p : Char → Bool) (s : String) : String := (s.data.dropWhile p).asString

/-- Modelled from the spec: pflag is an external library (spec section 6,
argument-vector contract).  One parsing step: `--` terminates flag parsing,
`--name=value` and `--name value` long flags, `-x=value` / `-x value` single
shorthands, no-value flags via the slot's no-argument default, `--help`/`-h`
with no such flag declared yields the help error, anything else is a
positional token. -/
def parseStep (fs : List PFlag) (a : String) (rest : List String) : StepRes :=
  if a = "--" then .done rest
  else if strPre "--" a then
    if strCh (a.drop 2) '=' then
      match lookupFlag fs (strTakeW (fun c => c ≠ '=') (a.drop 2)) with
      | Option.none =>
        if strTakeW (fun c => c ≠ '=') (a.drop 2) = "help" then .fail .help
        else .fail (.unknownFlag a)
      | Option.some f =>
        .assign f (strTakeW (fun c => c ≠ '=') (a.drop 2))
          ((strDropW (fun c => c ≠ '=') (a.drop 2)).drop 1) rest
    else
      match lookupFlag fs (a.drop 2) with
      | Option.none =>
        if a.drop 2 = "help" then .fail .help else .fail (.unknownFlag a)
      | Option.some f =>
        if f.noOptDefVal ≠ "" then .assign f (a.drop 2) f.noOptDefVal rest
        else
          match rest with
          | [] => .fail (.needsValue a)
          | v :: rest2 => .assign f (a.drop 2) v rest2
  else if strPre "-" a ∧ a ≠ "-" then
    match fs.find? (fun f => f.shorthand == (a.drop 1).take 1) with
    | Option.none =>
      if (a.drop 1).take 1 = "h" then .fail .help else .fail (.unknownFlag a)
    | Option.some f =>
      if strPre "=" ((a.drop 1).drop 1) then .assign f f.name ((a.drop 1).drop 2) rest
      else if f.noOptDefVal ≠ "" then .assign f f.name f.noOptDefVal rest
      else
        match rest with
        | [] => .fail (.needsValue a)
        | v :: rest2 => .assign f f.name v rest2
  else .pos a rest

/-- Modelled from the spec: the parsing loop of `pflag.FlagSet.Parse`, fuelled
by the vector length (each step consumes at least one token, so the fuel never
runs out on the calls `parseArgs` makes).  Values are applied through
`Value.Set`; a `Set` failure stops parsing with an error, without marking the
flag changed; flags interleave with positionals; parsing stops at the first
error keeping the work done so far. -/
def parseLoop (setOk : SetOk) (fs : List PFlag) :
    Nat → List String → Vals → ParseOut
  | _, [], vals => ⟨vals, [], [], Option.none⟩
  | 0, _ :: _, vals => ⟨vals, [], [], Option.none⟩
  | fuel + 1, a :: rest, vals =>
    match parseStep fs a rest with
    | .done rest2 => ⟨vals, [], rest2, Option.none⟩
    | .fail e => ⟨vals, [], [], Option.some e⟩
    | .pos tok rest2 =>
      let r := parseLoop setOk fs fuel rest2 vals
      ⟨r.vals, r.changed, tok :: r.positionals, r.err⟩
    | .assign f nm v rest2 =>
      if setOk f.valueId v then
        let r := parseLoop setOk fs fuel rest2 (setVal vals f.valueId v)
        ⟨r.vals, nm :: r.changed, r.positionals, r.err⟩
      else ⟨vals, [], [], Option.some (.invalidValue nm v)⟩

/-- Modelled from the spec: one full `pflag.FlagSet.Parse` call. -/
def parseArgs (setOk : SetOk) (fs : List PFlag) (args : List String)
    (vals : Vals) : ParseOut :=
  parseLoop setOk fs args.length args vals

/-- A `Command` tree node (command.go), restricted to the fields dispatch
reads.  Handlers are external collaborators, so only their presence is
recorded; `yamlDoc` stands for the parsed document of a `YAMLConfigPath`
option of this command (empty list = no config file referenced). -/
structure Cmd where
  name : String
  aliases : List String := []
  opts : List Opt := []
  children : List Cmd := []
  rawArgs : Bool := false
  version : String := ""
  hasHandler : Bool := true
  hasHelpHandler : Bool := false
  yamlDoc : YDoc := []

/-- The `runState` of command.go plus the invocation fields `run` threads
through the recursion (`parsedFlags` and the accumulated `Changed` names). -/
structure RunSt where
  allArgs : List String
  commandDepth : Nat
  flagParseErr : Option FlagErr
  parsedFlags : List PFlag
  changed : List String

/-- Every way `Invocation.run` can terminate. -/
inductive RunOutcome where
  | outOfFuel
  | envError (errs : List String)
  | dupChild (name : String)
  | yamlError (errs : List String)
  | defaultsError (errs : List String)
  | completions
  | flagError (e : FlagErr)
  | missingRequired (names : List String)
  | panicked
  | printedVersion (line : String)
  | unknownSubcommand (args : List String)
  | ranDefaultHelp
  | ranHelpHandler (args : List String)
  | ranHandler (cmd : String) (args : List String)
deriving DecidableEq, Repr

/-- The duplicate-child check of `Invocation.run` (command.go lines 420-429):
walk every child's aliases then its name, failing on the first name seen
twice. -/
def dupChildName (cs : List Cmd) : Option String :=
  (cs.foldl
    (fun acc c =>
      (c.aliases ++ [c.name]).foldl
        (fun acc2 n =>
          match acc2.2 with
          | Option.some e => (acc2.1, Option.some e)
          | Option.none =>
            if n ∈ acc2.1 then (acc2.1, Option.some n) else (n :: acc2.1, Option.none))
        acc)
    (([] : List String), (Option.none : Option String))).2

/-- Lookup of the `children` map built by `run` (unique keys by the duplicate
check): the child owning the given name or alias. -/
def childFor (cs : List Cmd) (n : String) : Option Cmd :=
  cs.find? (fun c => c.aliases.contains n || c.name == n)

/-- `findArg` (command.go): index of the first occurrence of `want` in `args`,
skipping flag tokens and their values using each flag's no-value property;
`Option.none` embeds the error return (which `run` turns into a panic). -/
def findArgAux (want : String) (fs : List PFlag) :
    List String → Nat → Option Nat
  | [], _ => Option.none
  | a :: rest, i =>
    if ¬ a.startsWith "-" then
      if a = want then Option.some i else findArgAux want fs rest (i + 1)
    else if a.contains '=' then findArgAux want fs rest (i + 1)
    else
      match lookupFlag fs (a.dropWhile (fun c => c = '-')) with
      | Option.none => Option.none
      | Option.some f =>
        if f.noOptDefVal ≠ "" then findArgAux want fs rest (i + 1)
        else
          match rest with
          | [] => Option.none
          | _ :: rest2 => findArgAux want fs rest2 (i + 2)

/-- `findArg` starting at index 0. -/
def findArg (want : String) (args : List String) (fs : List PFlag) : Option Nat :=
  findArgAux want fs args 0

/-- The missing-required collection of `run` (command.go lines 527-537): the
name (falling back to the flag name) of every required option whose source is
still `none`. -/
def missingNamesOf (opts : List Opt) : List String :=
  opts.filterMap (fun o =>
    if o.required = true ∧ o.valueSource = .none then
      Option.some (if o.name = "" then o.flag else o.name)
    else Option.none)

/-- `OptionSet.ByFlag` (option.go): nil on the empty name, else the first
option bound to the flag. -/
def byFlag (opts : List Opt) (fl : String) : Option Opt :=
  if fl = "" then Option.none else opts.find? (fun o => o.flag == fl)

/-- Whether the recorded flag-parse error is `pflag.ErrHelp`. -/
def isHelpErr : Option FlagErr → Bool
  | Option.some .help => true
  | _ => false

/-- The help dispatch of `run` (command.go lines 584-589) combined with
`DefaultHelpFn` (help.go lines 336-367): a dedicated help handler runs if set;
otherwise the default help prints and returns `UnknownSubcommandError` exactly
when positional arguments remain. -/
def helpOutcome (c : Cmd) (args : List String) : RunOutcome :=
  if c.hasHelpHandler then .ranHelpHandler args
  else if args ≠ [] then .unknownSubcommand args
  else .ranDefaultHelp

/-- The tail of `run` after the required check (command.go lines 543-598):
positional-argument computation, version printing, then help or handler
dispatch. -/
def dispatchTail (c : Cmd) (opts : List Opt) (st : RunSt) (args : List String) :
    RunOutcome :=
  let doVersion :=
    if c.version = "" then false
    else
      match byFlag opts "version" with
      | Option.none => false
      | Option.some vopt =>
        match lookupFlag st.parsedFlags vopt.flag with
        | Option.none => false
        | Option.some _ => vopt.flag ∈ st.changed
  if doVersion then .printedVersion (c.name ++ " " ++ c.version)
  else if c.hasHandler = false ∨ isHelpErr st.flagParseErr then helpOutcome c args
  else .ranHandler c.name args

/-- The positional-argument slice of the terminal command (command.go lines
543-558): raw-args commands receive everything after their own name token
(everything, at the root), found by `findArg`; other commands receive the
parsed positionals from their depth on.  `Option.none` embeds the `findArg`
panic. -/
def argsOf (c : Cmd) (st : RunSt) (parsedArgs : List String) :
    Option (List String) :=
  if c.rawArgs then
    if st.commandDepth = 0 then Option.some st.allArgs
    else
      match findArg c.name st.allArgs st.parsedFlags with
      | Option.none => Option.none
      | Option.some pos => Option.some (st.allArgs.drop (pos + 1))
  else Option.some (parsedArgs.drop st.commandDepth)

/-- The terminal phase of `run` (command.go lines 505-598): completion mode,
the deferred flag-parse error (ignored for raw-args commands and help
requests), required-option enforcement (skipped in completion mode or on a
help request), then `dispatchTail`. -/
def finishRun (completion : Bool) (c : Cmd) (opts : List Opt) (st : RunSt)
    (parsedArgs : List String) : RunOutcome :=
  if completion then .completions
  else
    let afterFlagCheck :=
      let missing := missingNamesOf opts
      if missing ≠ [] ∧ completion = false ∧ isHelpErr st.flagParseErr = false then
        .missingRequired missing
      else
        match argsOf c st parsedArgs with
        | Option.none => .panicked
        | Option.some args => dispatchTail c opts st args
    match st.flagParseErr with
    | Option.some e => if c.rawArgs = true ∨ e = .help then afterFlagCheck else .flagError e
    | Option.none => afterFlagCheck

/-- Per-node resolution record: the state after the env, flag, config and
default stages of `run`, with the intermediate post-flag store kept for
stating the no-overwrite law. -/
structure ResolveOut where
  opts : List Opt
  vals : Vals
  valsAfterFlags : Vals
  envErrs : List String
  yamlErrs : List String
  defErrs : List String
  parsedArgs : List String
  flagErr : Option FlagErr
  changed : List String
  fs : List PFlag

/-- The flag-source marking loop of `run` (command.go lines 457-461): mark
`ValueSource = flag` on every option whose bound flag is in the accumulated
set and was changed by the parse. -/
def markFlagSources (fs : List PFlag) (changed : List String)
    (opts : List Opt) : List Opt :=
  opts.map (fun o =>
    if (lookupFlag fs o.flag).isSome ∧ o.flag ∈ changed then
      { o with valueSource := .flag }
    else o)

/-- The inputs of one node's resolution inside `run`. -/
structure RNIn where
  setOk : SetOk
  envs : List EnvVar
  doc : YDoc
  rawArgs : Bool
  opts : List Opt
  vals : Vals
  fsAcc : List PFlag
  allArgs : List String
  prevChanged : List String
  prevErr : Option FlagErr

/-- Stage 1 of a `run` node: `ParseEnv` (command.go line 413). -/
def rnPE (p : RNIn) : List Opt × Vals × List String :=
  parseEnvList p.setOk p.envs p.opts p.vals

/-- Stage 2: merge this node's flags into the accumulated flag set
(command.go lines 440-445). -/
def rnFS (p : RNIn) : List PFlag :=
  mergeFlags p.fsAcc (flagSetOf (rnPE p).1)

/-- Stage 3: parse the full argument vector against the accumulated set;
raw-args commands skip parsing and keep the inherited parse state with an
empty positional list (command.go lines 449-454). -/
def rnPR (p : RNIn) : ParseOut :=
  if p.rawArgs then ⟨(rnPE p).2.1, p.prevChanged, [], p.prevErr⟩
  else parseArgs p.setOk (rnFS p) p.allArgs (rnPE p).2.1

/-- Stage 4: flag-source marking (command.go lines 457-461). -/
def rnOpts2 (p : RNIn) : List Opt :=
  markFlagSources (rnFS p) (rnPR p).changed (rnPE p).1

/-- Stage 5: config-file application (command.go lines 464-485). -/
def rnYA (p : RNIn) : List Opt × Vals × List String :=
  applyYAMLList p.setOk p.doc (rnOpts2 p) (rnPR p).vals

/-- Stage 6: `SetDefaults` (command.go line 487). -/
def rnSD (p : RNIn) : RState × List String :=
  SetDefaults p.setOk ⟨(rnYA p).1, (rnYA p).2.1⟩

/-- The resolution stages of one `run` node in source order (command.go lines
413-490): `ParseEnv`, flag-set merge, flag parsing, flag-source marking,
config application, `SetDefaults`. -/
def resolveNode (setOk : SetOk) (envs : List EnvVar) (doc : YDoc)
    (rawArgs : Bool) (opts : List Opt) (vals : Vals) (fsAcc : List PFlag)
    (allArgs : List String) (prevChanged : List String)
    (prevErr : Option FlagErr) : ResolveOut :=
  let p : RNIn :=
    ⟨setOk, envs, doc, rawArgs, opts, vals, fsAcc, allArgs, prevChanged, prevErr⟩
  { opts := (rnSD p).1.opts, vals := (rnSD p).1.vals,
    valsAfterFlags := (rnPR p).vals,
    envErrs := (rnPE p).2.2, yamlErrs := (rnYA p).2.2, defErrs := (rnSD p).2,
    parsedArgs := (rnPR p).positionals, flagErr := (rnPR p).err,
    changed := (rnPR p).changed, fs := rnFS p }

/-- `Invocation.run` (command.go lines 404-599), fuelled on the recursion
depth: resolve the node, abort on stage errors in source order, descend into a
matching child, otherwise finish at this node. -/
def runAux (setOk : SetOk) (envs : List EnvVar) (completion : Bool) :
    Nat → Cmd → Vals → RunSt → RunOutcome
  | 0, _, _, _ => .outOfFuel
  | fuel + 1, c, vals, st =>
    let r := resolveNode setOk envs c.yamlDoc c.rawArgs c.opts vals
      st.parsedFlags st.allArgs st.changed st.flagParseErr
    if r.envErrs ≠ [] then .envError r.envErrs
    else
      match dupChildName c.children with
      | Option.some n => .dupChild n
      | Option.none =>
        if r.yamlErrs ≠ [] then .yamlError r.yamlErrs
        else if r.defErrs ≠ [] then .defaultsError r.defErrs
        else
          let st2 : RunSt :=
            { st with parsedFlags := r.fs, flagParseErr := r.flagErr,
                      changed := r.changed }
          let next :=
            if st.commandDepth < r.parsedArgs.length then
              childFor c.children (r.parsedArgs.getD st.commandDepth "")
            else Option.none
          match next with
          | Option.some child =>
            runAux setOk envs completion fuel child r.vals
              { st2 with commandDepth := st.commandDepth + 1 }
          | Option.none => finishRun completion c r.opts st2 r.parsedArgs

/-- `Invocation.Run` on a fresh invocation (command.go lines 657-690, without
the `init` linting pass, which only sorts and injects a version flag). -/
def runCmd (setOk : SetOk) (envs : List EnvVar) (completion : Bool) (c : Cmd)
    (args : List String) (vals : Vals) (fuel : Nat) : RunOutcome :=
  runAux setOk envs completion fuel c vals ⟨args, 0, Option.none, [], []⟩

/-- The environment value `ParseEnv` will feed to an option: the looked-up
value unless the binding is empty, the variable is absent, or its value is the
empty string. -/
def envValOf (envs : List EnvVar) (o : Opt) : Option String :=
  if o.env = "" then Option.none
  else
    match envValFor envs o.env with
    | Option.none => Option.none
    | Option.some v => if v = "" then Option.none else Option.some v

theorem envStep_eq (setOk : SetOk) (envs : List EnvVar) (o : Opt) (vals : Vals) :
    envStep setOk envs o vals =
      match envValOf envs o with
      | Option.none => (o, vals, [])
      | Option.some v =>
        if setOk o.valueId v then
          ({ o with valueSource := .env }, setVal vals o.valueId v, [])
        else ({ o with valueSource := .env }, vals, ["parse " ++ o.name]) := by
  unfold envStep envValOf
  by_cases h : o.env = "" <;> simp [h]
  cases envValFor envs o.env with
  | none => simp
  | some v => by_cases hv : v = "" <;> simp [hv]

/-- After `ParseEnv`, an option is marked `env` exactly when the environment
supplied a usable value; nothing else of the option changes. -/
theorem parseEnvList_opts (setOk : SetOk) (envs : List EnvVar) :
    ∀ (opts : List Opt) (vals : Vals),
      (parseEnvList setOk envs opts vals).1 =
        opts.map (fun o =>
          if (envValOf envs o).isSome then { o with valueSource := .env } else o)
  | [], _ => rfl
  | o :: rest, vals => by
    simp only [parseEnvList, List.map_cons, envStep_eq]
    cases h : envValOf envs o with
    | none => simp [parseEnvList_opts setOk envs rest, h]
    | some v =>
      by_cases hs : setOk o.valueId v <;>
        simp [parseEnvList_opts setOk envs rest, h, hs]

/-- The error list of `ParseEnv` is the join of the per-option parse failures,
in option order. -/
theorem parseEnvList_errs (setOk : SetOk) (envs : List EnvVar) :
    ∀ (opts : List Opt) (vals : Vals),
      (parseEnvList setOk envs opts vals).2.2 =
        opts.filterMap (fun o =>
          match envValOf envs o with
          | Option.none => Option.none
          | Option.some v =>
            if setOk o.valueId v then Option.none
            else Option.some ("parse " ++ o.name))
  | [], _ => rfl
  | o :: rest, vals => by
    simp only [parseEnvList, List.filterMap_cons, envStep_eq]
    cases h : envValOf envs o with
    | none => simp [parseEnvList_errs setOk envs rest, h]
    | some v =>
      by_cases hs : setOk o.valueId v <;>
        simp [parseEnvList_errs setOk envs rest, h, hs]

/-- Value slots whose identity is bound by no option are untouched by
`ParseEnv`. -/
theorem parseEnvList_vals_frame (setOk : SetOk) (envs : List EnvVar) (id : Nat) :
    ∀ (opts : List Opt) (vals : Vals),
      (∀ o ∈ opts, o.valueId ≠ id) →
      (parseEnvList setOk envs opts vals).2.1 id = vals id
  | [], _, _ => rfl
  | o :: rest, vals, h => by
    have ho : o.valueId ≠ id := h o (by simp)
    have hrest : ∀ x ∈ rest, x.valueId ≠ id := fun x hx => h x (by simp [hx])
    simp only [parseEnvList, envStep_eq]
    cases hv : envValOf envs o with
    | none => exact parseEnvList_vals_frame setOk envs id rest vals hrest
    | some v =>
      by_cases hs : setOk o.valueId v
      · simp only [hs, if_pos]
        rw [parseEnvList_vals_frame setOk envs id rest _ hrest]
        simp [setVal, Ne.symm ho]
      · simp only [hs]
        exact parseEnvList_vals_frame setOk envs id rest vals hrest

/-- Effect of `ParseEnv` on the slot of an option whose identity no other
option shares: the supplied environment value lands in the slot exactly when
`Value.Set` accepts it. -/
theorem parseEnvList_vals_at (setOk : SetOk) (envs : List EnvVar) :
    ∀ (opts : List Opt) (vals : Vals) (o : Opt),
      o ∈ opts →
      (∀ o2 ∈ opts, o2.valueId = o.valueId → o2 = o) →
      opts.Nodup →
      (parseEnvList setOk envs opts vals).2.1 o.valueId =
        (match envValOf envs o with
         | Option.none => vals o.valueId
         | Option.some v => if setOk o.valueId v then v else vals o.valueId)
  | [], _, _, hmem, _, _ => by simp at hmem
  | a :: rest, vals, o, hmem, huniq, hnd => by
    rcases List.mem_cons.mp hmem with rfl | hrest
    · have hro : ∀ x ∈ rest, x.valueId ≠ o.valueId := by
        intro x hx heq
        have := huniq x (by simp [hx]) heq
        subst this
        exact (List.nodup_cons.mp hnd).1 hx
      simp only [parseEnvList, envStep_eq]
      cases hv : envValOf envs o with
      | none => simp [parseEnvList_vals_frame setOk envs o.valueId rest vals hro]
      | some v =>
        by_cases hs : setOk o.valueId v
        · simp only [hs, if_pos]
          rw [parseEnvList_vals_frame setOk envs o.valueId rest _ hro]
          simp [setVal]
        · simp only [hs, if_neg]
          simp [parseEnvList_vals_frame setOk envs o.valueId rest vals hro, hs]
    · have hao : a.valueId ≠ o.valueId := by
        intro heq
        have ha := huniq a (by simp) heq
        subst ha
        exact (List.nodup_cons.mp hnd).1 hrest
      have huniq2 : ∀ o2 ∈ rest, o2.valueId = o.valueId → o2 = o := fun o2 h2 =>
        huniq o2 (by simp [h2])
      have hnd2 : rest.Nodup := (List.nodup_cons.mp hnd).2
      simp only [parseEnvList, envStep_eq]
      cases hv : envValOf envs a with
      | none => exact parseEnvList_vals_at setOk envs rest vals o hrest huniq2 hnd2
      | some v =>
        by_cases hs : setOk a.valueId v
        · simp only [hs, if_pos]
          rw [parseEnvList_vals_at setOk envs rest _ o hrest huniq2 hnd2]
          simp [setVal, Ne.symm hao]
        · simp only [hs]
          exact parseEnvList_vals_at setOk envs rest vals o hrest huniq2 hnd2

/-- The config value the yaml stage will feed to an option: the document value
at its config path unless the path is empty or a higher-priority source (flag
or env) already resolved it. -/
def yamlValOf (doc : YDoc) (o : Opt) : Option String :=
  if o.yamlKey = "" then Option.none
  else if o.valueSource = .flag ∨ o.valueSource = .env then Option.none
  else ydocGet doc o.yamlKey

theorem yamlStep_eq (setOk : SetOk) (doc : YDoc) (o : Opt) (vals : Vals) :
    yamlStep setOk doc o vals =
      match yamlValOf doc o with
      | Option.none => (o, vals, [])
      | Option.some v =>
        if setOk o.valueId v then
          ({ o with valueSource := .yaml }, setVal vals o.valueId v, [])
        else ({ o with valueSource := .yaml }, vals, ["parse " ++ o.name]) := by
  unfold yamlStep yamlValOf
  by_cases h : o.yamlKey = "" <;> simp [h]
  by_cases h2 : o.valueSource = .flag ∨ o.valueSource = .env <;> simp [h2]

/-- After the yaml stage, an option is marked `yaml` exactly when the document
supplied a value for it and no higher-priority source had resolved it. -/
theorem applyYAMLList_opts (setOk : SetOk) (doc : YDoc) :
    ∀ (opts : List Opt) (vals : Vals),
      (applyYAMLList setOk doc opts vals).1 =
        opts.map (fun o =>
          if (yamlValOf doc o).isSome then { o with valueSource := .yaml } else o)
  | [], _ => rfl
  | o :: rest, vals => by
    simp only [applyYAMLList, List.map_cons, yamlStep_eq]
    cases h : yamlValOf doc o with
    | none => simp [applyYAMLList_opts setOk doc rest, h]
    | some v =>
      by_cases hs : setOk o.valueId v <;>
        simp [applyYAMLList_opts setOk doc rest, h, hs]

/-- Value slots whose identity is bound by no option are untouched by the yaml
stage. -/
theorem applyYAMLList_vals_frame (setOk : SetOk) (doc : YDoc) (id : Nat) :
    ∀ (opts : List Opt) (vals : Vals),
      (∀ o ∈ opts, o.valueId ≠ id) →
      (applyYAMLList setOk doc opts vals).2.1 id = vals id
  | [], _, _ => rfl
  | o :: rest, vals, h => by
    have ho : o.valueId ≠ id := h o (by simp)
    have hrest : ∀ x ∈ rest, x.valueId ≠ id := fun x hx => h x (by simp [hx])
    simp only [applyYAMLList, yamlStep_eq]
    cases hv : yamlValOf doc o with
    | none => exact applyYAMLList_vals_frame setOk doc id rest vals hrest
    | some v =>
      by_cases hs : setOk o.valueId v
      · simp only [hs, if_pos]
        rw [applyYAMLList_vals_frame setOk doc id rest _ hrest]
        simp [setVal, Ne.symm ho]
      · simp only [hs]
        exact applyYAMLList_vals_frame setOk doc id rest vals hrest

/-- Effect of the yaml stage on the slot of an option whose identity no other
option shares. -/
theorem applyYAMLList_vals_at (setOk : SetOk) (doc : YDoc) :
    ∀ (opts : List Opt) (vals : Vals) (o : Opt),
      o ∈ opts →
      (∀ o2 ∈ opts, o2.valueId = o.valueId → o2 = o) →
      opts.Nodup →
      (applyYAMLList setOk doc opts vals).2.1 o.valueId =
        (match yamlValOf doc o with
         | Option.none => vals o.valueId
         | Option.some v => if setOk o.valueId v then v else vals o.valueId)
  | [], _, _, hmem, _, _ => by simp at hmem
  | a :: rest, vals, o, hmem, huniq, hnd => by
    rcases List.mem_cons.mp hmem with rfl | hrest
    · have hro : ∀ x ∈ rest, x.valueId ≠ o.valueId := by
        intro x hx heq
        have := huniq x (by simp [hx]) heq
        subst this
        exact (List.nodup_cons.mp hnd).1 hx
      simp only [applyYAMLList, yamlStep_eq]
      cases hv : yamlValOf doc o with
      | none => simp [applyYAMLList_vals_frame setOk doc o.valueId rest vals hro]
      | some v =>
        by_cases hs : setOk o.valueId v
        · simp only [hs, if_pos]
          rw [applyYAMLList_vals_frame setOk doc o.valueId rest _ hro]
          simp [setVal]
        · simp only [hs, if_neg]
          simp [applyYAMLList_vals_frame setOk doc o.valueId rest vals hro, hs]
    · have hao : a.valueId ≠ o.valueId := by
        intro heq
        have ha := huniq a (by simp) heq
        subst ha
        exact (List.nodup_cons.mp hnd).1 hrest
      have huniq2 : ∀ o2 ∈ rest, o2.valueId = o.valueId → o2 = o := fun o2 h2 =>
        huniq o2 (by simp [h2])
      have hnd2 : rest.Nodup := (List.nodup_cons.mp hnd).2
      simp only [applyYAMLList, yamlStep_eq]
      cases hv : yamlValOf doc a with
      | none => exact applyYAMLList_vals_at setOk doc rest vals o hrest huniq2 hnd2
      | some v =>
        by_cases hs : setOk a.valueId v
        · simp only [hs, if_pos]
          rw [applyYAMLList_vals_at setOk doc rest _ o hrest huniq2 hnd2]
          simp [setVal, Ne.symm hao]
        · simp only [hs]
          exact applyYAMLList_vals_at setOk doc rest vals o hrest huniq2 hnd2

/-- The source `SetDefaults` assigns to every member of a value group, if any:
the group's highest-priority source when one is set, else `default` when some
member carries a default literal, else nothing. -/
def groupNewSource (g : List Opt) : Option VSource :=
  if winningSourceOf g ≠ .none then Option.some (winningSourceOf g)
  else if (pickDefault g).1.isSome then Option.some .default
  else Option.none

/-- The effect of `SetDefaults` on one option, given the full option list it
lives in. -/
def decideOpt (all : List Opt) (o : Opt) : Opt :=
  match groupNewSource (all.filter (fun x => x.valueId == o.valueId)) with
  | Option.some s => { o with valueSource := s }
  | Option.none => o

/-- The effect of `SetDefaults` on the value store, for one group. -/
def groupValUpd (setOk : SetOk) (g : List Opt) (id : Nat) (v : Vals) : Vals :=
  if winningSourceOf g ≠ .none then v
  else
    match (pickDefault g).1 with
    | Option.none => v
    | Option.some c => if setOk id c.defVal then setVal v id c.defVal else v

/-- The errors `SetDefaults` collects for one group. -/
def groupErrsOf (setOk : SetOk) (g : List Opt) (id : Nat) : List String :=
  if winningSourceOf g ≠ .none then []
  else
    match (pickDefault g).1 with
    | Option.none => (pickDefault g).2
    | Option.some c =>
      (pickDefault g).2 ++ (if setOk id c.defVal then [] else ["parse " ++ c.name])

theorem decideOpt_valueId (all : List Opt) (o : Opt) :
    (decideOpt all o).valueId = o.valueId := by
  unfold decideOpt
  cases groupNewSource (all.filter (fun x => x.valueId == o.valueId)) <;> rfl

theorem decideOpt_congr (all1 all2 : List Opt) (o : Opt)
    (h : all1.filter (fun x => x.valueId == o.valueId) =
      all2.filter (fun x => x.valueId == o.valueId)) :
    decideOpt all1 o = decideOpt all2 o := by
  unfold decideOpt
  rw [h]

theorem applyGroup_eq (setOk : SetOk) (opts : List Opt) (vals : Vals)
    (es : List String) (id : Nat) :
    applyGroup setOk (⟨opts, vals⟩, es) id =
      (⟨opts.map (fun o => if o.valueId = id then decideOpt opts o else o),
        groupValUpd setOk (opts.filter (fun x => x.valueId == id)) id vals⟩,
       es ++ groupErrsOf setOk (opts.filter (fun x => x.valueId == id)) id) := by
  unfold applyGroup groupValUpd groupErrsOf
  by_cases hw : winningSourceOf (opts.filter (fun x => x.valueId == id)) ≠ .none
  · simp only [hw, if_pos, ite_not, List.append_nil]
    refine Prod.ext ?_ ?_
    · refine congrArg (fun l => RState.mk l vals) ?_
      refine List.map_congr_left (fun o _ => ?_)
      by_cases h : o.valueId = id
      · simp only [h, if_pos, decideOpt, groupNewSource, hw, if_true]
        simp [h, hw]
      · simp [h]
    · simp [hw]
  · simp only [hw, ite_not, if_neg, not_not]
    push_neg at hw
    cases hp : (pickDefault (opts.filter (fun x => x.valueId == id))).1 with
    | none =>
      simp only [hw, hp]
      refine Prod.ext ?_ ?_
      · refine congrArg (fun l => RState.mk l vals) ?_
        refine Eq.symm (List.map_congr_left (fun o _ => ?_) |>.trans (List.map_id opts))
        by_cases h : o.valueId = id
        · simp only [h, if_pos, decideOpt, groupNewSource, hw, hp, h]
          simp [hw, hp, h]
        · simp [h]
      · simp [hw, hp]
    | some c =>
      simp only [hw, hp]
      refine Prod.ext ?_ ?_
      · refine congrArg₂ (fun l v => RState.mk l v) ?_ ?_
        · refine List.map_congr_left (fun o _ => ?_)
          by_cases h : o.valueId = id
          · simp only [h, if_pos, decideOpt, groupNewSource, hw, hp, h]
            simp [hw, hp, h]
          · simp [h]
        · simp [hw, hp]
      · simp [hw, hp]

/-- Filtering out another value group commutes with the per-group update map,
since the update preserves value identities and leaves other groups alone. -/
theorem filter_map_other_group (f : Opt → Opt) (id id2 : Nat)
    (hker : ∀ o, (f o).valueId = o.valueId)
    (hfix : ∀ o, o.valueId ≠ id → f o = o) (h : id2 ≠ id) :
    ∀ opts : List Opt,
      (opts.map f).filter (fun x => x.valueId == id2) =
        opts.filter (fun x => x.valueId == id2)
  | [] => rfl
  | a :: rest => by
    by_cases ha : a.valueId = id2
    · have hfa : f a = a := hfix a (by rw [ha]; exact h)
      simp only [List.map_cons, List.filter_cons, hfa, ha]
      simp [filter_map_other_group f id id2 hker hfix h rest]
    · have hfa : (f a).valueId ≠ id2 := by rw [hker]; exact ha
      simp only [List.map_cons, List.filter_cons]
      rw [if_neg (by simpa using hfa), if_neg (by simpa using ha)]
      exact filter_map_other_group f id id2 hker hfix h rest

/-- Fold functions that agree on the list's members give equal folds. -/
theorem foldl_congr_mem {α β : Type} (f g : β → α → β) :
    ∀ (l : List α), (∀ a ∈ l, ∀ b, f b a = g b a) → ∀ b, l.foldl f b = l.foldl g b
  | [], _, _ => rfl
  | a :: rest, h, b => by
    simp only [List.foldl_cons]
    rw [h a (by simp)]
    exact foldl_congr_mem f g rest (fun x hx => h x (by simp [hx])) (g b a)

/-- Characterization of the group fold of `SetDefaults`: sources per option via
`decideOpt`, store updates and errors joined group by group, all computed from
the original state (groups are disjoint, so earlier groups never disturb a
later group's inputs). -/
theorem foldGroups_char (setOk : SetOk) :
    ∀ (ids : List Nat), ids.Nodup → ∀ (opts : List Opt) (vals : Vals) (es : List String),
      ids.foldl (applyGroup setOk) (⟨opts, vals⟩, es) =
        (⟨opts.map (fun o => if o.valueId ∈ ids then decideOpt opts o else o),
          ids.foldl
            (fun v id => groupValUpd setOk (opts.filter (fun x => x.valueId == id)) id v)
            vals⟩,
         es ++ (ids.map
            (fun id => groupErrsOf setOk (opts.filter (fun x => x.valueId == id)) id)).flatten)
  | [], _, opts, vals, es => by simp
  | id :: rest, hnd, opts, vals, es => by
    have hidrest : id ∉ rest := (List.nodup_cons.mp hnd).1
    have hndrest : rest.Nodup := (List.nodup_cons.mp hnd).2
    rw [List.foldl_cons, applyGroup_eq,
      foldGroups_char setOk rest hndrest _ _ _]
    have hker : ∀ o : Opt,
        ((fun o => if o.valueId = id then decideOpt opts o else o) o).valueId = o.valueId := by
      intro o
      by_cases h : o.valueId = id <;> simp [h, decideOpt_valueId]
    have hfix : ∀ o : Opt, o.valueId ≠ id →
        (fun o => if o.valueId = id then decideOpt opts o else o) o = o := by
      intro o h; simp [h]
    refine Prod.ext (congrArg₂ (fun l v => RState.mk l v) ?_ ?_) ?_
    · rw [List.map_map]
      refine List.map_congr_left (fun o _ => ?_)
      by_cases h : o.valueId = id
      · have : o.valueId ∉ rest := by rw [h]; exact hidrest
        simp only [Function.comp_apply, h, if_pos]
        rw [if_neg (by rw [decideOpt_valueId, h]; exact hidrest)]
        simp [h]
      · simp only [Function.comp_apply, if_neg h]
        by_cases h2 : o.valueId ∈ rest
        · rw [if_pos h2, if_pos (by simp [h2, h])]
          exact decideOpt_congr _ _ o
            (filter_map_other_group _ id o.valueId hker hfix (fun he => h he) opts)
        · rw [if_neg h2, if_neg (by simp [h2, h])]
    · refine foldl_congr_mem _ _ rest (fun a ha v => ?_) _
      rw [filter_map_other_group _ id a hker hfix (by intro he; subst he; exact hidrest ha) opts]
    · rw [List.map_cons, List.flatten, List.append_assoc]
      refine congrArg (fun l => es ++ (groupErrsOf setOk (opts.filter (fun x => x.valueId == id)) id ++ l)) ?_
      refine congrArg List.flatten ?_
      refine List.map_congr_left (fun a ha => ?_)
      rw [filter_map_other_group _ id a hker hfix (by intro he; subst he; exact hidrest ha) opts]

theorem SetDefaults_opts (setOk : SetOk) (rs : RState) :
    (SetDefaults setOk rs).1.opts = rs.opts.map (decideOpt rs.opts) := by
  have h := foldGroups_char setOk (dedupIds rs.opts)
    (by simpa [dedupIds] using List.nodup_dedup (rs.opts.map (fun o => o.valueId)))
    rs.opts rs.vals []
  unfold SetDefaults
  cases rs with
  | mk opts vals =>
    rw [h]
    refine List.map_congr_left (fun o ho => ?_)
    rw [if_pos]
    simp only [dedupIds, List.mem_dedup]
    exact List.mem_map.mpr ⟨o, ho, rfl⟩

theorem SetDefaults_vals (setOk : SetOk) (rs : RState) :
    (SetDefaults setOk rs).1.vals =
      (dedupIds rs.opts).foldl
        (fun v id => groupValUpd setOk (rs.opts.filter (fun x => x.valueId == id)) id v)
        rs.vals := by
  have h := foldGroups_char setOk (dedupIds rs.opts)
    (by simpa [dedupIds] using List.nodup_dedup (rs.opts.map (fun o => o.valueId)))
    rs.opts rs.vals []
  unfold SetDefaults
  cases rs with
  | mk opts vals => rw [h]

theorem SetDefaults_errs (setOk : SetOk) (rs : RState) :
    (SetDefaults setOk rs).2 =
      ((dedupIds rs.opts).map
        (fun id => groupErrsOf setOk (rs.opts.filter (fun x => x.valueId == id)) id)).flatten := by
  have h := foldGroups_char setOk (dedupIds rs.opts)
    (by simpa [dedupIds] using List.nodup_dedup (rs.opts.map (fun o => o.valueId)))
    rs.opts rs.vals []
  unfold SetDefaults
  cases rs with
  | mk opts vals => rw [h]; simp

/-- The fold step of `winningSourceOf`. -/
def wstep (acc : VSource) (o : Opt) : VSource :=
  if srcIdx o.valueSource < srcIdx acc then o.valueSource else acc

theorem winningSourceOf_eq_fold (g : List Opt) :
    winningSourceOf g = g.foldl wstep .none := rfl

theorem srcIdx_le_four (s : VSource) : srcIdx s ≤ 4 := by cases s <;> simp [srcIdx]

theorem srcIdx_eq_four (s : VSource) (h : 4 ≤ srcIdx s) : s = .none := by
  cases s <;> simp [srcIdx] at h ⊢

theorem wfold_le_acc : ∀ (g : List Opt) (acc : VSource),
    srcIdx (g.foldl wstep acc) ≤ srcIdx acc
  | [], _ => le_refl _
  | o :: rest, acc => by
    refine le_trans (wfold_le_acc rest (wstep acc o)) ?_
    unfold wstep
    by_cases h : srcIdx o.valueSource < srcIdx acc
    · rw [if_pos h]; exact le_of_lt h
    · rw [if_neg h]

theorem wfold_le_mem : ∀ (g : List Opt) (acc : VSource) (o : Opt), o ∈ g →
    srcIdx (g.foldl wstep acc) ≤ srcIdx o.valueSource
  | [], _, _, h => by simp at h
  | a :: rest, acc, o, h => by
    rcases List.mem_cons.mp h with rfl | hrest
    · refine le_trans (wfold_le_acc rest (wstep acc o)) ?_
      unfold wstep
      by_cases h2 : srcIdx o.valueSource < srcIdx acc
      · rw [if_pos h2]
      · rw [if_neg h2]; omega
    · exact wfold_le_mem rest (wstep acc a) o hrest

theorem wfold_cases : ∀ (g : List Opt) (acc : VSource),
    g.foldl wstep acc = acc ∨ ∃ o ∈ g, g.foldl wstep acc = o.valueSource
  | [], acc => Or.inl rfl
  | a :: rest, acc => by
    have hw : wstep acc a = (if srcIdx a.valueSource < srcIdx acc then a.valueSource else acc) := rfl
    rw [List.foldl_cons]
    rcases wfold_cases rest (wstep acc a) with h | ⟨o, ho, h⟩
    · rw [hw] at h
      by_cases h2 : srcIdx a.valueSource < srcIdx acc
      · rw [if_pos h2] at h
        rw [hw, if_pos h2]
        exact Or.inr ⟨a, by simp, h⟩
      · rw [if_neg h2] at h
        rw [hw, if_neg h2]
        exact Or.inl h
    · exact Or.inr ⟨o, by simp [ho], h⟩

/-- If the winning source of a group is `none`, every member is unresolved. -/
theorem winningSourceOf_none (g : List Opt) (h : winningSourceOf g = .none) :
    ∀ o ∈ g, o.valueSource = .none := by
  intro o ho
  have := wfold_le_mem g .none o ho
  rw [← winningSourceOf_eq_fold, h] at this
  exact srcIdx_eq_four _ (le_trans (by simp [srcIdx]) this)

/-- A nonempty group whose members all carry the same source wins with it. -/
theorem winningSourceOf_uniform (g : List Opt) (s : VSource)
    (hne : g ≠ []) (h : ∀ o ∈ g, o.valueSource = s) :
    winningSourceOf g = s := by
  rcases wfold_cases g .none with hc | ⟨o, ho, hc⟩
  · rw [winningSourceOf_eq_fold, hc]
    rcases List.exists_mem_of_ne_nil g hne with ⟨o, ho⟩
    have hle := wfold_le_mem g .none o ho
    rw [hc] at hle
    rw [← h o ho]
    exact (srcIdx_eq_four _ (le_trans (by simp [srcIdx]) hle)).symm
  · rw [winningSourceOf_eq_fold, hc, h o ho]

/-- The fold step of `pickDefault`. -/
def pdStep (acc : Option Opt × List String) (o : Opt) : Option Opt × List String :=
  if o.defVal = "" then acc
  else
    match acc.1 with
    | Option.none => (Option.some o, acc.2)
    | Option.some c =>
      if c.defVal ≠ o.defVal then (Option.some c, acc.2 ++ ["conflict " ++ o.name])
      else (Option.some o, acc.2)

theorem pickDefault_eq_fold (g : List Opt) :
    pickDefault g = g.foldl pdStep (Option.none, []) := rfl

theorem pd_len_mono : ∀ (g : List Opt) (acc : Option Opt × List String),
    acc.2.length ≤ (g.foldl pdStep acc).2.length
  | [], _ => le_refl _
  | o :: rest, acc => by
    refine le_trans ?_ (pd_len_mono rest (pdStep acc o))
    unfold pdStep
    by_cases h : o.defVal = ""
    · rw [if_pos h]
    · rw [if_neg h]
      cases hc : acc.1 with
      | none => simp
      | some c => by_cases h2 : c.defVal ≠ o.defVal <;> simp [h2]

theorem pd_some_stays : ∀ (g : List Opt) (c : Opt) (es : List String),
    (g.foldl pdStep (Option.some c, es)).1.isSome
  | [], _, _ => rfl
  | o :: rest, c, es => by
    rw [List.foldl_cons]
    by_cases h : o.defVal = ""
    · have hstep : pdStep (Option.some c, es) o = (Option.some c, es) := by
        simp [pdStep, h]
      rw [hstep]
      exact pd_some_stays rest c es
    · by_cases h2 : c.defVal = o.defVal
      · have hstep : pdStep (Option.some c, es) o = (Option.some o, es) := by
          simp [pdStep, h, h2]
        rw [hstep]
        exact pd_some_stays rest o es
      · have hstep : pdStep (Option.some c, es) o =
            (Option.some c, es ++ ["conflict " ++ o.name]) := by
          simp [pdStep, h, h2]
        rw [hstep]
        exact pd_some_stays rest c _

theorem pd_all_empty : ∀ (g : List Opt), (∀ o ∈ g, o.defVal = "") →
    ∀ acc, g.foldl pdStep acc = acc
  | [], _, _ => rfl
  | o :: rest, h, acc => by
    rw [List.foldl_cons]
    have ho : o.defVal = "" := h o (by simp)
    have : pdStep acc o = acc := by unfold pdStep; rw [if_pos ho]
    rw [this]
    exact pd_all_empty rest (fun x hx => h x (by simp [hx])) acc

theorem pd_fst_none_inv : ∀ (g : List Opt) (acc : Option Opt × List String),
    (g.foldl pdStep acc).1 = Option.none →
    acc.1 = Option.none ∧ ∀ o ∈ g, o.defVal = ""
  | [], acc, h => ⟨h, by simp⟩
  | o :: rest, acc, h => by
    rw [List.foldl_cons] at h
    by_cases ho : o.defVal = ""
    · have hstep : pdStep acc o = acc := by unfold pdStep; rw [if_pos ho]
      rw [hstep] at h
      obtain ⟨h1, h2⟩ := pd_fst_none_inv rest acc h
      exact ⟨h1, by
        intro x hx
        rcases List.mem_cons.mp hx with rfl | hx2
        · exact ho
        · exact h2 x hx2⟩
    · exfalso
      have hsome : (pdStep acc o).1.isSome := by
        unfold pdStep
        rw [if_neg ho]
        cases hc : acc.1 with
        | none => rfl
        | some c => by_cases h2 : c.defVal ≠ o.defVal <;> simp [h2]
      cases hstep : (pdStep acc o) with
      | mk ch es =>
        rw [hstep] at h hsome
        cases ch with
        | none => simp at hsome
        | some c2 =>
          have := pd_some_stays rest c2 es
          rw [h] at this
          simp at this

theorem pd_agree : ∀ (g : List Opt) (d : String) (ch : Option Opt) (es : List String),
    (∀ o ∈ g, o.defVal ≠ "" → o.defVal = d) →
    (∀ c, ch = Option.some c → c.defVal = d) →
    (g.foldl pdStep (ch, es)).2 = es
  | [], _, _, _, _, _ => rfl
  | o :: rest, d, ch, es, hg, hch => by
    rw [List.foldl_cons]
    have hrest : ∀ x ∈ rest, x.defVal ≠ "" → x.defVal = d := fun x hx => hg x (by simp [hx])
    by_cases ho : o.defVal = ""
    · have hstep : pdStep (ch, es) o = (ch, es) := by unfold pdStep; rw [if_pos ho]
      rw [hstep]
      exact pd_agree rest d ch es hrest hch
    · have hod : o.defVal = d := hg o (by simp) ho
      cases ch with
      | none =>
        have hstep : pdStep (Option.none, es) o = (Option.some o, es) := by
          unfold pdStep; rw [if_neg ho]
        rw [hstep]
        exact pd_agree rest d (Option.some o) es hrest (by
          intro c hc
          cases hc
          exact hod)
      | some c =>
        have hcd : c.defVal = o.defVal := (hch c rfl).trans hod.symm
        have hstep : pdStep (Option.some c, es) o = (Option.some o, es) := by
          simp [pdStep, ho, hcd]
        rw [hstep]
        exact pd_agree rest d (Option.some o) es hrest (by
          intro c2 hc2
          cases hc2
          exact hod)

theorem pd_nil_sound : ∀ (g : List Opt) (ch : Option Opt) (es : List String),
    (g.foldl pdStep (ch, es)).2 = es →
    ((∀ c, ch = Option.some c → ∀ o ∈ g, o.defVal ≠ "" → o.defVal = c.defVal) ∧
     (ch = Option.none →
       ∀ o1 ∈ g, ∀ o2 ∈ g, o1.defVal ≠ "" → o2.defVal ≠ "" → o1.defVal = o2.defVal))
  | [], ch, es, _ => ⟨by intro c _ o ho; simp at ho, by intro _ o1 h1; simp at h1⟩
  | o :: rest, ch, es, h => by
    rw [List.foldl_cons] at h
    by_cases ho : o.defVal = ""
    · have hstep : pdStep (ch, es) o = (ch, es) := by unfold pdStep; rw [if_pos ho]
      rw [hstep] at h
      obtain ⟨ih1, ih2⟩ := pd_nil_sound rest ch es h
      constructor
      · intro c hc x hx hne
        rcases List.mem_cons.mp hx with rfl | hx2
        · exact absurd ho hne
        · exact ih1 c hc x hx2 hne
      · intro hn o1 h1 o2 h2 hne1 hne2
        rcases List.mem_cons.mp h1 with rfl | h1b
        · exact absurd ho hne1
        · rcases List.mem_cons.mp h2 with rfl | h2b
          · exact absurd ho hne2
          · exact ih2 hn o1 h1b o2 h2b hne1 hne2
    · cases ch with
      | none =>
        have hstep : pdStep (Option.none, es) o = (Option.some o, es) := by
          unfold pdStep; rw [if_neg ho]
        rw [hstep] at h
        obtain ⟨ih1, _⟩ := pd_nil_sound rest (Option.some o) es h
        have hall : ∀ x ∈ rest, x.defVal ≠ "" → x.defVal = o.defVal :=
          ih1 o rfl
        constructor
        · intro c hc; cases hc
        · intro _ o1 h1 o2 h2 hne1 hne2
          rcases List.mem_cons.mp h1 with rfl | h1b
          · rcases List.mem_cons.mp h2 with rfl | h2b
            · rfl
            · exact (hall o2 h2b hne2).symm
          · rcases List.mem_cons.mp h2 with rfl | h2b
            · exact hall o1 h1b hne1
            · exact (hall o1 h1b hne1).trans (hall o2 h2b hne2).symm
      | some c =>
        by_cases hcd : c.defVal = o.defVal
        · have hstep : pdStep (Option.some c, es) o = (Option.some o, es) := by
            unfold pdStep
            rw [if_neg ho]
            simp [hcd]
          rw [hstep] at h
          obtain ⟨ih1, _⟩ := pd_nil_sound rest (Option.some o) es h
          have hall : ∀ x ∈ rest, x.defVal ≠ "" → x.defVal = o.defVal := ih1 o rfl
          constructor
          · intro c2 hc2 x hx hne
            cases hc2
            rcases List.mem_cons.mp hx with rfl | hx2
            · exact hcd.symm
            · exact (hall x hx2 hne).trans hcd.symm
          · intro hn; cases hn
        · exfalso
          have hstep : pdStep (Option.some c, es) o =
              (Option.some c, es ++ ["conflict " ++ o.name]) := by
            unfold pdStep
            rw [if_neg ho]
            simp [hcd]
          rw [hstep] at h
          have := pd_len_mono rest (Option.some c, es ++ ["conflict " ++ o.name])
          rw [h] at this
          simp at this

/-- A group whose non-empty default literals all agree produces no conflict
error in the `optWithDefault` loop. -/
theorem pickDefault_errs_nil (g : List Opt)
    (h : ∀ o1 ∈ g, ∀ o2 ∈ g, o1.defVal ≠ "" → o2.defVal ≠ "" → o1.defVal = o2.defVal) :
    (pickDefault g).2 = [] := by
  rw [pickDefault_eq_fold]
  by_cases hex : ∃ o0 ∈ g, o0.defVal ≠ ""
  · obtain ⟨o0, ho0, hne⟩ := hex
    exact pd_agree g o0.defVal Option.none [] (fun o ho h2 => h o ho o0 ho0 h2 hne) (by intro c hc; cases hc)
  · push_neg at hex
    rw [pd_all_empty g hex _]

/-- Two different non-empty default literals in one group force a conflict
error from the `optWithDefault` loop. -/
theorem pickDefault_conflict (g : List Opt) (o1 : Opt) (o2 : Opt)
    (h1 : o1 ∈ g) (h2 : o2 ∈ g) (hne1 : o1.defVal ≠ "") (hne2 : o2.defVal ≠ "")
    (hdiff : o1.defVal ≠ o2.defVal) :
    (pickDefault g).2 ≠ [] := by
  intro hnil
  rw [pickDefault_eq_fold] at hnil
  obtain ⟨_, hagree⟩ := pd_nil_sound g Option.none [] hnil
  exact hdiff (hagree rfl o1 h1 o2 h2 hne1 hne2)

/-- The loop picks no default exactly when no member declares one. -/
theorem pickDefault_none_iff (g : List Opt) :
    (pickDefault g).1 = Option.none ↔ ∀ o ∈ g, o.defVal = "" := by
  constructor
  · intro h
    exact (pd_fst_none_inv g _ (by rw [← pickDefault_eq_fold]; exact h)).2
  · intro h
    rw [pickDefault_eq_fold, pd_all_empty g h _]

theorem opt_source_self (o : Opt) : { o with valueSource := o.valueSource } = o := by
  cases o
  rfl

theorem winningSourceOf_singleton (o : Opt) :
    winningSourceOf [o] = o.valueSource := by
  cases h : o.valueSource <;> simp [winningSourceOf, srcIdx, h]

/-- With pairwise-distinct value identities, an option's value group is just
itself. -/
theorem filter_valueId_nodup :
    ∀ (opts : List Opt), (opts.map (fun x => x.valueId)).Nodup →
      ∀ o ∈ opts, opts.filter (fun x => x.valueId == o.valueId) = [o]
  | [], _, o, ho => by simp at ho
  | a :: rest, hnd, o, ho => by
    have hnd2 : (a.valueId :: rest.map (fun x => x.valueId)).Nodup := by
      simpa using hnd
    have hna : a.valueId ∉ rest.map (fun x => x.valueId) := (List.nodup_cons.mp hnd2).1
    have hndr : (rest.map (fun x => x.valueId)).Nodup := (List.nodup_cons.mp hnd2).2
    rcases List.mem_cons.mp ho with rfl | hr
    · rw [List.filter_cons, if_pos (by simp)]
      have : rest.filter (fun x => x.valueId == o.valueId) = [] := by
        refine List.filter_eq_nil_iff.mpr (fun x hx => ?_)
        simp only [beq_iff_eq]
        intro he
        exact hna (List.mem_map.mpr ⟨x, hx, he⟩)
      rw [this]
    · have hao : a.valueId ≠ o.valueId := by
        intro he
        exact hna (he ▸ List.mem_map.mpr ⟨o, hr, rfl⟩)
      rw [List.filter_cons, if_neg (by simpa using hao)]
      exact filter_valueId_nodup rest hndr o hr

theorem flatten_nil_of : ∀ (l : List (List String)), (∀ x ∈ l, x = []) → l.flatten = []
  | [], _ => rfl
  | x :: rest, h => by
    rw [List.flatten_cons, h x (by simp), List.nil_append]
    exact flatten_nil_of rest (fun y hy => h y (by simp [hy]))

theorem foldl_id_of {α : Type} (f : Vals → α → Vals) :
    ∀ (l : List α), (∀ a ∈ l, ∀ v, f v a = v) → ∀ v, l.foldl f v = v
  | [], _, _ => rfl
  | a :: rest, h, v => by
    rw [List.foldl_cons, h a (by simp)]
    exact foldl_id_of f rest (fun x hx => h x (by simp [hx])) v

theorem dedup_const : ∀ (l : List Nat) (i : Nat), l ≠ [] → (∀ x ∈ l, x = i) →
    l.dedup = [i]
  | [], _, h, _ => absurd rfl h
  | a :: rest, i, _, h => by
    have ha : a = i := h a (by simp)
    by_cases hr : rest = []
    · subst hr ha
      simp
    · have hd : rest.dedup = [i] := dedup_const rest i hr (fun x hx => h x (by simp [hx]))
      have hmem : a ∈ rest := by
        subst ha
        rcases List.exists_mem_of_ne_nil rest hr with ⟨y, hy⟩
        have hyi := h y (by simp [hy])
        exact hyi ▸ hy
      rw [List.dedup_cons_of_mem hmem, hd]

theorem map_valueId_of_preserve (f : Opt → Opt)
    (h : ∀ o, (f o).valueId = o.valueId) (l : List Opt) :
    (l.map f).map (fun x => x.valueId) = l.map (fun x => x.valueId) := by
  rw [List.map_map]
  exact List.map_congr_left (fun o _ => h o)

/-- How `decideOpt` changes the source. -/
theorem decideOpt_source (all : List Opt) (o : Opt) :
    (decideOpt all o).valueSource =
      (match groupNewSource (all.filter (fun x => x.valueId == o.valueId)) with
       | Option.some s => s
       | Option.none => o.valueSource) := by
  unfold decideOpt
  cases groupNewSource (all.filter (fun x => x.valueId == o.valueId)) <;> rfl

/-- Per-option provenance effect of `ParseEnv`. -/
def envMarkOf (envs : List EnvVar) (o : Opt) : Opt :=
  if (envValOf envs o).isSome then { o with valueSource := .env } else o

/-- Per-option parse failure of `ParseEnv`, when the environment supplies a
value that `Value.Set` rejects. -/
def envErrOf (setOk : SetOk) (envs : List EnvVar) (o : Opt) : Option String :=
  match envValOf envs o with
  | Option.none => Option.none
  | Option.some v =>
    if setOk o.valueId v then Option.none else Option.some ("parse " ++ o.name)

/-- C8.  `ParseEnv` collects per-option value-parse failures instead of
aborting: the returned error is the join, in option order, of every per-option
parse failure, and every option is still processed (each one's provenance is
updated independently of earlier failures). -/
theorem C8_parseenv_collects_failures (setOk : SetOk) (envs : List EnvVar)
    (rs : RState) :
    (ParseEnv setOk envs rs).2 = rs.opts.filterMap (envErrOf setOk envs) ∧
      (ParseEnv setOk envs rs).1.opts = rs.opts.map (envMarkOf envs) := by
  constructor
  · rw [show (ParseEnv setOk envs rs).2 =
        (parseEnvList setOk envs rs.opts rs.vals).2.2 from rfl]
    rw [parseEnvList_errs]
    refine congrArg (List.filterMap · rs.opts) ?_
    funext o
    unfold envErrOf
    rfl
  · rw [show (ParseEnv setOk envs rs).1.opts =
        (parseEnvList setOk envs rs.opts rs.vals).1 from rfl]
    rw [parseEnvList_opts]
    refine List.map_congr_left (fun o _ => ?_)
    unfold envMarkOf
    rfl

/-- C10.  `ParseEnv` marks `ValueSource = env` before calling `Value.Set`: when
the bound variable is present with a non-empty value that fails to parse, the
option's provenance is still `env` afterwards, and the parse failure is in the
returned joined error. -/
theorem C10_parseenv_marks_before_set (setOk : SetOk) (envs : List EnvVar)
    (rs : RState) (i : Nat) (o : Opt) (v : String)
    (hi : i < rs.opts.length)
    (hdef : rs.opts.getD i {} = o)
    (hval : envValOf envs o = Option.some v)
    (hbad : setOk o.valueId v = false) :
    ((ParseEnv setOk envs rs).1.opts.getD i {}).valueSource = .env ∧
      ("parse " ++ o.name) ∈ (ParseEnv setOk envs rs).2 := by
  have hmem : o ∈ rs.opts := by
    rw [← hdef, List.getD_eq_getElem rs.opts {} hi]
    exact List.getElem_mem hi
  constructor
  · have hopts : (ParseEnv setOk envs rs).1.opts =
        rs.opts.map (fun o =>
          if (envValOf envs o).isSome then { o with valueSource := .env } else o) :=
      parseEnvList_opts setOk envs rs.opts rs.vals
    rw [hopts]
    have hlen2 : i < (rs.opts.map (fun o =>
        if (envValOf envs o).isSome then { o with valueSource := .env } else o)).length := by
      rw [List.length_map]
      exact hi
    rw [List.getD_eq_getElem _ {} hlen2, List.getElem_map]
    rw [List.getD_eq_getElem _ {} hi] at hdef
    rw [hdef]
    simp [hval]
  · rw [show (ParseEnv setOk envs rs).2 =
        (parseEnvList setOk envs rs.opts rs.vals).2.2 from rfl]
    rw [parseEnvList_errs]
    refine List.mem_filterMap.mpr ⟨o, hmem, ?_⟩
    simp [hval, hbad]

/-- C5.  `ParseEnv` falls back to the `HOMEBREW_`-prefixed variable when the
bound name is absent, storing the fallback value with `ValueSource = env`; and
a bound variable that is present but empty counts as unset, so an option with
no other source ends resolution (`ParseEnv` then `SetDefaults`) at
`ValueSource = none`. -/
theorem C5_env_fallback_empty_unset (setOk : SetOk) (envs : List EnvVar)
    (rs : RState) (i : Nat) (o : Opt)
    (hi : i < rs.opts.length)
    (hdef : rs.opts.getD i {} = o)
    (henv : o.env ≠ "")
    (hnd : (rs.opts.map (fun x => x.valueId)).Nodup) :
    (∀ v, envMapGet envs o.env = Option.none →
      envMapGet envs ("HOMEBREW_" ++ o.env) = Option.some v → v ≠ "" →
      setOk o.valueId v = true →
      ((ParseEnv setOk envs rs).1.opts.getD i {}).valueSource = .env ∧
        (ParseEnv setOk envs rs).1.vals o.valueId = v) ∧
    (envMapGet envs o.env = Option.some "" → o.valueSource = .none → o.defVal = "" →
      ((SetDefaults setOk (ParseEnv setOk envs rs).1).1.opts.getD i {}).valueSource
        = .none) := by
  have hmem : o ∈ rs.opts := by
    rw [← hdef, List.getD_eq_getElem rs.opts {} hi]
    exact List.getElem_mem hi
  have hidx : rs.opts[i] = o := by
    rw [← List.getD_eq_getElem rs.opts {} hi]
    exact hdef
  have hinj := List.inj_on_of_nodup_map hnd
  have hopts1 : (ParseEnv setOk envs rs).1.opts =
      rs.opts.map (fun o =>
        if (envValOf envs o).isSome then { o with valueSource := .env } else o) :=
    parseEnvList_opts setOk envs rs.opts rs.vals
  constructor
  · intro v h1 h2 h3 h4
    have hval : envValOf envs o = Option.some v := by
      simp [envValOf, envValFor, henv, h1, h2, h3]
    constructor
    · rw [hopts1]
      have hlen2 : i < (rs.opts.map (fun o =>
          if (envValOf envs o).isSome then { o with valueSource := .env } else o)).length := by
        rw [List.length_map]
        exact hi
      rw [List.getD_eq_getElem _ {} hlen2, List.getElem_map, hidx]
      simp [hval]
    · have hv := parseEnvList_vals_at setOk envs rs.opts rs.vals o hmem
        (fun o2 h2m he => hinj h2m hmem he) (List.Nodup.of_map _ hnd)
      rw [show (ParseEnv setOk envs rs).1.vals =
        (parseEnvList setOk envs rs.opts rs.vals).2.1 from rfl]
      rw [hv]
      simp [hval, h4]
  · intro hpres hsrc hdefv
    have hval : envValOf envs o = Option.none := by
      simp [envValOf, envValFor, henv, hpres]
    have hpre : ∀ o2 : Opt,
        ((fun o => if (envValOf envs o).isSome then { o with valueSource := .env } else o)
          o2).valueId = o2.valueId := by
      intro o2
      by_cases h : (envValOf envs o2).isSome <;> simp [h]
    have hnd1 : ((ParseEnv setOk envs rs).1.opts.map (fun x => x.valueId)).Nodup := by
      rw [hopts1, map_valueId_of_preserve _ hpre]
      exact hnd
    have hlen1 : i < (ParseEnv setOk envs rs).1.opts.length := by
      rw [hopts1, List.length_map]
      exact hi
    have hgd1 : (ParseEnv setOk envs rs).1.opts.getD i {} = o := by
      rw [hopts1]
      have hlen2 : i < (rs.opts.map (fun o =>
          if (envValOf envs o).isSome then { o with valueSource := .env } else o)).length := by
        rw [List.length_map]
        exact hi
      rw [List.getD_eq_getElem _ {} hlen2, List.getElem_map, hidx]
      simp [hval]
    have hel1 : (ParseEnv setOk envs rs).1.opts[i] = o := by
      rw [← List.getD_eq_getElem _ {} hlen1]
      exact hgd1
    have hmem1 : o ∈ (ParseEnv setOk envs rs).1.opts := by
      rw [← hel1]
      exact List.getElem_mem hlen1
    rw [SetDefaults_opts]
    have hlen3 : i < ((ParseEnv setOk envs rs).1.opts.map
        (decideOpt (ParseEnv setOk envs rs).1.opts)).length := by
      rw [List.length_map]
      exact hlen1
    rw [List.getD_eq_getElem _ {} hlen3, List.getElem_map, hel1, decideOpt_source,
      filter_valueId_nodup _ hnd1 o hmem1]
    simp [groupNewSource, winningSourceOf_singleton, hsrc, pickDefault, pdStep, hdefv]

/-- After `SetDefaults`, all members of one value group carry one source. -/
theorem setDefaults_uniform (setOk : SetOk) (rs0 : RState) :
    ∀ o1 ∈ (SetDefaults setOk rs0).1.opts, ∀ o2 ∈ (SetDefaults setOk rs0).1.opts,
      o1.valueId = o2.valueId → o1.valueSource = o2.valueSource := by
  intro o1 h1 o2 h2 hid
  rw [SetDefaults_opts] at h1 h2
  obtain ⟨a1, ha1, rfl⟩ := List.mem_map.mp h1
  obtain ⟨a2, ha2, rfl⟩ := List.mem_map.mp h2
  rw [decideOpt_valueId, decideOpt_valueId] at hid
  rw [decideOpt_source, decideOpt_source, hid]
  cases hg : groupNewSource (rs0.opts.filter (fun x => x.valueId == a2.valueId)) with
  | some s => rfl
  | none =>
    have hwn : winningSourceOf (rs0.opts.filter (fun x => x.valueId == a2.valueId)) = .none := by
      by_contra hne
      unfold groupNewSource at hg
      rw [if_pos hne] at hg
      exact Option.noConfusion hg
    have hmem1 : a1 ∈ rs0.opts.filter (fun x => x.valueId == a2.valueId) := by
      rw [List.mem_filter]
      exact ⟨ha1, by simp [hid]⟩
    have hmem2 : a2 ∈ rs0.opts.filter (fun x => x.valueId == a2.valueId) := by
      rw [List.mem_filter]
      exact ⟨ha2, by simp⟩
    rw [winningSourceOf_none _ hwn a1 hmem1, winningSourceOf_none _ hwn a2 hmem2]

/-- C6.  After resolution (`ParseEnv` followed by `SetDefaults`), every member
of an aliased group sharing one value identity reports the same `ValueSource`:
the winning member's source is propagated to all siblings. -/
theorem C6_aliases_report_same_source (setOk : SetOk) (envs : List EnvVar)
    (rs : RState) (o1 o2 : Opt)
    (h1 : o1 ∈ (SetDefaults setOk (ParseEnv setOk envs rs).1).1.opts)
    (h2 : o2 ∈ (SetDefaults setOk (ParseEnv setOk envs rs).1).1.opts)
    (hid : o1.valueId = o2.valueId) :
    o1.valueSource = o2.valueSource :=
  setDefaults_uniform setOk (ParseEnv setOk envs rs).1 o1 h1 o2 h2 hid

/-- C7.  `SetDefaults` is idempotent on an already-resolved set: when every
value group carries one non-`none` source, it mutates no value slot, changes
no provenance, and reports no error. -/
theorem C7_setdefaults_idempotent (setOk : SetOk) (rs : RState)
    (hsome : ∀ o ∈ rs.opts, o.valueSource ≠ .none)
    (huni : ∀ o1 ∈ rs.opts, ∀ o2 ∈ rs.opts, o1.valueId = o2.valueId →
      o1.valueSource = o2.valueSource) :
    (SetDefaults setOk rs).1.opts = rs.opts ∧
      (SetDefaults setOk rs).1.vals = rs.vals ∧
      (SetDefaults setOk rs).2 = [] := by
  have hgroup : ∀ o ∈ rs.opts,
      winningSourceOf (rs.opts.filter (fun x => x.valueId == o.valueId)) = o.valueSource := by
    intro o ho
    refine winningSourceOf_uniform _ o.valueSource ?_ ?_
    · intro hnil
      have : o ∈ rs.opts.filter (fun x => x.valueId == o.valueId) := by
        rw [List.mem_filter]
        exact ⟨ho, by simp⟩
      rw [hnil] at this
      simp at this
    · intro x hx
      have hx2 := List.mem_filter.mp hx
      exact huni x hx2.1 o ho (by simpa using hx2.2)
  refine ⟨?_, ?_, ?_⟩
  · rw [SetDefaults_opts]
    refine (List.map_congr_left (fun o ho => ?_)).trans (List.map_id rs.opts)
    unfold decideOpt
    rw [show groupNewSource (rs.opts.filter (fun x => x.valueId == o.valueId)) =
        Option.some o.valueSource from ?_]
    · exact opt_source_self o
    · unfold groupNewSource
      rw [hgroup o ho, if_pos (hsome o ho)]
  · rw [SetDefaults_vals]
    refine foldl_id_of _ _ (fun id hid v => ?_) rs.vals
    have : ∃ o ∈ rs.opts, o.valueId = id := by
      simp only [dedupIds, List.mem_dedup] at hid
      obtain ⟨o, ho, he⟩ := List.mem_map.mp hid
      exact ⟨o, ho, he⟩
    obtain ⟨o, ho, rfl⟩ := this
    unfold groupValUpd
    rw [hgroup o ho, if_pos (hsome o ho)]
  · rw [SetDefaults_errs]
    refine flatten_nil_of _ (fun x hx => ?_)
    obtain ⟨id, hid, rfl⟩ := List.mem_map.mp hx
    have : ∃ o ∈ rs.opts, o.valueId = id := by
      simp only [dedupIds, List.mem_dedup] at hid
      obtain ⟨o, ho, he⟩ := List.mem_map.mp hid
      exact ⟨o, ho, he⟩
    obtain ⟨o, ho, rfl⟩ := this
    unfold groupErrsOf
    rw [hgroup o ho, if_pos (hsome o ho)]

/-- C4.  On an aliased group sharing one value with no prior source,
`SetDefaults` errors when two members declare different non-empty default
literals, and succeeds when all the non-empty default literals agree (given
that the slot accepts the default). -/
theorem C4_default_conflict (setOk : SetOk) (rs : RState) (id0 : Nat)
    (hall : ∀ o ∈ rs.opts, o.valueId = id0)
    (hsrc : ∀ o ∈ rs.opts, o.valueSource = .none)
    (hne : rs.opts ≠ []) :
    ((∃ o1 ∈ rs.opts, ∃ o2 ∈ rs.opts,
        o1.defVal ≠ "" ∧ o2.defVal ≠ "" ∧ o1.defVal ≠ o2.defVal) →
      (SetDefaults setOk rs).2 ≠ []) ∧
    ((∀ o1 ∈ rs.opts, ∀ o2 ∈ rs.opts,
        o1.defVal ≠ "" → o2.defVal ≠ "" → o1.defVal = o2.defVal) →
      (∀ s, setOk id0 s = true) →
      (SetDefaults setOk rs).2 = []) := by
  have hd : dedupIds rs.opts = [id0] := by
    unfold dedupIds
    refine dedup_const _ id0 ?_ ?_
    · intro h
      exact hne (List.map_eq_nil_iff.mp h)
    · intro x hx
      obtain ⟨o, ho, rfl⟩ := List.mem_map.mp hx
      exact hall o ho
  have hfilter : rs.opts.filter (fun x => x.valueId == id0) = rs.opts :=
    List.filter_eq_self.mpr (fun x hx => by simp [hall x hx])
  have herrs : (SetDefaults setOk rs).2 = groupErrsOf setOk rs.opts id0 := by
    rw [SetDefaults_errs, hd]
    simp [hfilter]
  have hw : winningSourceOf rs.opts = .none :=
    winningSourceOf_uniform rs.opts .none hne hsrc
  constructor
  · rintro ⟨o1, h1, o2, h2, hne1, hne2, hdiff⟩
    have hpd := pickDefault_conflict rs.opts o1 o2 h1 h2 hne1 hne2 hdiff
    rw [herrs]
    unfold groupErrsOf
    rw [hw, if_neg (by simp)]
    cases hp : (pickDefault rs.opts).1 with
    | none => exact hpd
    | some c =>
      intro hcontra
      exact hpd (List.append_eq_nil.mp hcontra).1
  · intro hagree hok
    have hpd0 := pickDefault_errs_nil rs.opts hagree
    rw [herrs]
    unfold groupErrsOf
    rw [hw, if_neg (by simp)]
    cases hp : (pickDefault rs.opts).1 with
    | none => exact hpd0
    | some c =>
      simp [hpd0, hok]

/-- One step of the flag-merge loop of `run`. -/
def mergeStep (acc2 : List PFlag) (f : PFlag) : List PFlag :=
  (if (lookupFlag acc2 f.name).isSome then copyFlagSetWithout acc2 f.name else acc2) ++ [f]

theorem mergeFlags_eq_foldl (acc toAdd : List PFlag) :
    mergeFlags acc toAdd = toAdd.foldl mergeStep acc := rfl

theorem find?_append_none {α : Type} (p : α → Bool) :
    ∀ (l1 l2 : List α), List.find? p l1 = Option.none →
      List.find? p (l1 ++ l2) = List.find? p l2
  | [], _, _ => rfl
  | a :: rest, l2, h => by
    cases hp : p a with
    | true =>
      rw [List.find?_cons_of_pos _ hp] at h
      exact Option.noConfusion h
    | false =>
      rw [List.find?_cons_of_neg _ (by simp [hp])] at h
      rw [List.cons_append, List.find?_cons_of_neg _ (by simp [hp])]
      exact find?_append_none p rest l2 h

theorem find?_append_some {α : Type} (p : α → Bool) (x : α) :
    ∀ (l1 l2 : List α), List.find? p l1 = Option.some x →
      List.find? p (l1 ++ l2) = Option.some x
  | [], _, h => Option.noConfusion h
  | a :: rest, l2, h => by
    cases hp : p a with
    | true =>
      rw [List.find?_cons_of_pos _ hp] at h
      rw [List.cons_append, List.find?_cons_of_pos _ hp]
      exact h
    | false =>
      rw [List.find?_cons_of_neg _ (by simp [hp])] at h
      rw [List.cons_append, List.find?_cons_of_neg _ (by simp [hp])]
      exact find?_append_some p x rest l2 h

theorem find?_filter_of_imp {α : Type} (p q : α → Bool)
    (h : ∀ x, p x = true → q x = true) :
    ∀ (l : List α), List.find? p (l.filter q) = List.find? p l
  | [] => rfl
  | a :: rest => by
    rw [List.filter_cons]
    by_cases hq : q a = true
    · rw [if_pos hq]
      cases hp : p a with
      | true => rw [List.find?_cons_of_pos _ hp, List.find?_cons_of_pos _ hp]
      | false =>
        rw [List.find?_cons_of_neg _ (by simp [hp]), List.find?_cons_of_neg _ (by simp [hp])]
        exact find?_filter_of_imp p q h rest
    · have hp : p a = false := by
        cases hpa : p a with
        | true => exact absurd (h a hpa) hq
        | false => rfl
      rw [if_neg hq, List.find?_cons_of_neg _ (by simp [hp])]
      exact find?_filter_of_imp p q h rest

/-- Lookup of the just-added flag after one merge step: always the new entry. -/
theorem lookupFlag_mergeStep_self (acc : List PFlag) (f : PFlag) :
    lookupFlag (mergeStep acc f) f.name = Option.some f := by
  unfold mergeStep
  by_cases h : (lookupFlag acc f.name).isSome
  · rw [if_pos h]
    unfold lookupFlag copyFlagSetWithout
    rw [find?_append_none]
    · simp
    · refine List.find?_eq_none.mpr (fun x hx => ?_)
      have := (List.mem_filter.mp hx).2
      simp only [decide_eq_true_eq] at this
      simp [this]
  · rw [if_neg h]
    unfold lookupFlag at h ⊢
    rw [find?_append_none]
    · simp
    · cases hf : List.find? (fun g => g.name == f.name) acc with
      | none => rfl
      | some g => rw [hf] at h; simp at h

/-- Lookup of any other name is unchanged by one merge step. -/
theorem lookupFlag_mergeStep_other (acc : List PFlag) (f : PFlag) (n : String)
    (hn : n ≠ f.name) :
    lookupFlag (mergeStep acc f) n = lookupFlag acc n := by
  unfold mergeStep
  have htail : List.find? (fun g => g.name == n) [f] = Option.none := by
    simp [Ne.symm hn]
  by_cases h : (lookupFlag acc f.name).isSome
  · rw [if_pos h]
    unfold lookupFlag copyFlagSetWithout
    have hfil : List.find? (fun g => g.name == n) (acc.filter (fun g => g.name ≠ f.name)) =
        List.find? (fun g => g.name == n) acc := by
      refine find?_filter_of_imp _ _ (fun x hx => ?_) acc
      simp only [beq_iff_eq] at hx
      simp [hx, hn]
    cases hf : List.find? (fun g => g.name == n) acc with
    | none =>
      rw [find?_append_none _ _ _ (by rw [hfil]; exact hf), htail]
    | some g =>
      rw [find?_append_some _ g _ _ (by rw [hfil]; exact hf)]
  · rw [if_neg h]
    unfold lookupFlag
    cases hf : List.find? (fun g => g.name == n) acc with
    | none => rw [find?_append_none _ _ _ hf, htail]
    | some g => rw [find?_append_some _ g _ _ hf]

/-- Lookups of names the descendant does not declare are unchanged by the
whole merge. -/
theorem lookupFlag_mergeFlags_frame :
    ∀ (toAdd acc : List PFlag) (n : String),
      n ∉ toAdd.map (fun f => f.name) →
      lookupFlag (mergeFlags acc toAdd) n = lookupFlag acc n
  | [], _, _, _ => rfl
  | f :: rest, acc, n, h => by
    have hn : n ≠ f.name := by
      intro he
      exact h (by simp [he])
    have hrest : n ∉ rest.map (fun f => f.name) := by
      intro he
      exact h (by simp [he])
    rw [mergeFlags_eq_foldl, List.foldl_cons, ← mergeFlags_eq_foldl,
      lookupFlag_mergeFlags_frame rest _ n hrest, lookupFlag_mergeStep_other acc f n hn]

/-- After one merge step, the new entry is the only one with its name. -/
theorem filter_mergeStep_self (acc : List PFlag) (f : PFlag) :
    (mergeStep acc f).filter (fun g => g.name == f.name) = [f] := by
  unfold mergeStep
  rw [List.filter_append]
  have htail : List.filter (fun g => g.name == f.name) [f] = [f] := by simp
  by_cases h : (lookupFlag acc f.name).isSome
  · rw [if_pos h]
    unfold copyFlagSetWithout
    rw [List.filter_filter]
    have : List.filter (fun a => (a.name == f.name) && decide ¬a.name = f.name) acc = [] := by
      refine List.filter_eq_nil_iff.mpr (fun x hx => ?_)
      by_cases he : x.name = f.name <;> simp [he]
    rw [this, htail, List.nil_append]
  · rw [if_neg h]
    have hnone : List.find? (fun g => g.name == f.name) acc = Option.none := by
      unfold lookupFlag at h
      cases hf : List.find? (fun g => g.name == f.name) acc with
      | none => rfl
      | some g => rw [hf] at h; simp at h
    have : List.filter (fun g => g.name == f.name) acc = [] :=
      List.filter_eq_nil_iff.mpr (fun x hx => List.find?_eq_none.mp hnone x hx)
    rw [this, htail, List.nil_append]

/-- Later merge steps for other names do not disturb a name's entries. -/
theorem filter_mergeStep_other (acc : List PFlag) (f : PFlag) (n : String)
    (hn : n ≠ f.name) :
    (mergeStep acc f).filter (fun g => g.name == n) =
      acc.filter (fun g => g.name == n) := by
  unfold mergeStep
  rw [List.filter_append]
  have htail : List.filter (fun g => g.name == n) [f] = [] := by simp [Ne.symm hn]
  by_cases h : (lookupFlag acc f.name).isSome
  · rw [if_pos h]
    unfold copyFlagSetWithout
    rw [List.filter_filter, htail, List.append_nil]
    refine List.filter_congr (fun x hx => ?_)
    by_cases he : x.name = n
    · simp [he, hn]
    · simp [he]
  · rw [if_neg h, htail, List.append_nil]

theorem filter_mergeFlags_frame :
    ∀ (toAdd acc : List PFlag) (n : String),
      n ∉ toAdd.map (fun f => f.name) →
      (mergeFlags acc toAdd).filter (fun g => g.name == n) =
        acc.filter (fun g => g.name == n)
  | [], _, _, _ => rfl
  | f :: rest, acc, n, h => by
    have hn : n ≠ f.name := by
      intro he
      exact h (by simp [he])
    have hrest : n ∉ rest.map (fun f => f.name) := by
      intro he
      exact h (by simp [he])
    rw [mergeFlags_eq_foldl, List.foldl_cons, ← mergeFlags_eq_foldl,
      filter_mergeFlags_frame rest _ n hrest, filter_mergeStep_other acc f n hn]

/-- Core override property of the merge loop, by induction over the flags the
descendant declares. -/
theorem mergeFlags_override :
    ∀ (toAdd acc : List PFlag), (toAdd.map (fun f => f.name)).Nodup →
      (∀ f ∈ toAdd,
        lookupFlag (mergeFlags acc toAdd) f.name = Option.some f ∧
          (mergeFlags acc toAdd).filter (fun g => g.name == f.name) = [f]) ∧
      (∀ n, n ∉ toAdd.map (fun f => f.name) →
        lookupFlag (mergeFlags acc toAdd) n = lookupFlag acc n)
  | [], acc, _ => ⟨by simp, fun n _ => rfl⟩
  | f :: rest, acc, hnew => by
    have hnew2 : (f.name :: rest.map (fun g => g.name)).Nodup := by simpa using hnew
    have hnf : f.name ∉ rest.map (fun g => g.name) := (List.nodup_cons.mp hnew2).1
    have hndr : (rest.map (fun g => g.name)).Nodup := (List.nodup_cons.mp hnew2).2
    obtain ⟨ih1, ih2⟩ := mergeFlags_override rest (mergeStep acc f) hndr
    refine ⟨?_, ?_⟩
    · intro g hg
      rcases List.mem_cons.mp hg with rfl | hgr
      · rw [mergeFlags_eq_foldl, List.foldl_cons, ← mergeFlags_eq_foldl]
        constructor
        · rw [lookupFlag_mergeFlags_frame rest _ g.name hnf,
            lookupFlag_mergeStep_self]
        · rw [filter_mergeFlags_frame rest _ g.name hnf, filter_mergeStep_self]
      · rw [mergeFlags_eq_foldl, List.foldl_cons, ← mergeFlags_eq_foldl]
        exact ih1 g hgr
    · intro n hnmem
      have hn : n ≠ f.name := by
        intro he
        exact hnmem (by simp [he])
      have hrest : n ∉ rest.map (fun g => g.name) := by
        intro he
        exact hnmem (by simp [he])
      rw [mergeFlags_eq_foldl, List.foldl_cons, ← mergeFlags_eq_foldl,
        lookupFlag_mergeFlags_frame rest _ n hrest, lookupFlag_mergeStep_other acc f n hn]

theorem lookupFlag_name (fs : List PFlag) (nm : String) (f : PFlag)
    (h : lookupFlag fs nm = Option.some f) : f.name = nm := by
  simpa using List.find?_some h

/-- Every flag a parsing step assigns comes from the flag set, and the changed
name recorded for it is that flag's name. -/
theorem parseStep_assign_inv (fs : List PFlag) (a : String) (rest : List String)
    (f : PFlag) (nm v : String) (rest2 : List String)
    (h : parseStep fs a rest = .assign f nm v rest2) :
    f ∈ fs ∧ f.name = nm := by
  unfold parseStep at h
  by_cases h0 : a = "--"
  · rw [if_pos h0] at h
    cases h
  · rw [if_neg h0] at h
    by_cases h1 : strPre "--" a = true
    · rw [if_pos h1] at h
      by_cases h2 : strCh (a.drop 2) '=' = true
      · rw [if_pos h2] at h
        cases hfind : lookupFlag fs (strTakeW (fun c => c ≠ '=') (a.drop 2)) with
        | none =>
          simp only [hfind] at h
          split at h <;> cases h
        | some f2 =>
          simp only [hfind] at h
          cases h
          exact ⟨List.mem_of_find?_eq_some hfind, lookupFlag_name _ _ _ hfind⟩
      · rw [if_neg h2] at h
        cases hfind : lookupFlag fs (a.drop 2) with
        | none =>
          simp only [hfind] at h
          split at h <;> cases h
        | some f2 =>
          simp only [hfind] at h
          by_cases h3 : f2.noOptDefVal ≠ ""
          · rw [if_pos h3] at h
            cases h
            exact ⟨List.mem_of_find?_eq_some hfind, lookupFlag_name _ _ _ hfind⟩
          · rw [if_neg h3] at h
            cases rest with
            | nil => cases h
            | cons v0 rest0 =>
              cases h
              exact ⟨List.mem_of_find?_eq_some hfind, lookupFlag_name _ _ _ hfind⟩
    · rw [if_neg h1] at h
      by_cases h4 : strPre "-" a = true ∧ a ≠ "-"
      · rw [if_pos h4] at h
        cases hfind : fs.find? (fun f => f.shorthand == (a.drop 1).take 1) with
        | none =>
          simp only [hfind] at h
          split at h <;> cases h
        | some f2 =>
          simp only [hfind] at h
          by_cases h5 : strPre "=" ((a.drop 1).drop 1) = true
          · rw [if_pos h5] at h
            cases h
            exact ⟨List.mem_of_find?_eq_some hfind, rfl⟩
          · rw [if_neg h5] at h
            by_cases h6 : f2.noOptDefVal ≠ ""
            · rw [if_pos h6] at h
              cases h
              exact ⟨List.mem_of_find?_eq_some hfind, rfl⟩
            · rw [if_neg h6] at h
              cases rest with
              | nil => cases h
              | cons v0 rest0 =>
                cases h
                exact ⟨List.mem_of_find?_eq_some hfind, rfl⟩
      · rw [if_neg h4] at h
        cases h

/-- A value slot is untouched by flag parsing unless some flag bound to it was
marked changed by the parse. -/
theorem parseLoop_vals_frame (setOk : SetOk) (fs : List PFlag) (id : Nat) :
    ∀ (fuel : Nat) (args : List String) (vals : Vals),
      (parseLoop setOk fs fuel args vals).vals id = vals id ∨
      ∃ f ∈ fs, f.valueId = id ∧
        f.name ∈ (parseLoop setOk fs fuel args vals).changed := by
  intro fuel args vals
  induction fuel, args, vals using parseLoop.induct setOk fs with
  | case1 fuel vals => left; cases fuel <;> rfl
  | case2 a rest vals => left; rfl
  | case3 fuel a rest vals rest2 hstep =>
    left
    simp [parseLoop, hstep]
  | case4 fuel a rest vals e hstep =>
    left
    simp [parseLoop, hstep]
  | case5 fuel a rest vals tok rest2 hstep ih =>
    have hred : parseLoop setOk fs (fuel + 1) (a :: rest) vals =
        ⟨(parseLoop setOk fs fuel rest2 vals).vals,
         (parseLoop setOk fs fuel rest2 vals).changed,
         tok :: (parseLoop setOk fs fuel rest2 vals).positionals,
         (parseLoop setOk fs fuel rest2 vals).err⟩ := by
      simp [parseLoop, hstep]
    rw [hred]
    exact ih
  | case6 fuel a rest vals f nm v rest2 hstep hok ih =>
    have hred : parseLoop setOk fs (fuel + 1) (a :: rest) vals =
        ⟨(parseLoop setOk fs fuel rest2 (setVal vals f.valueId v)).vals,
         nm :: (parseLoop setOk fs fuel rest2 (setVal vals f.valueId v)).changed,
         (parseLoop setOk fs fuel rest2 (setVal vals f.valueId v)).positionals,
         (parseLoop setOk fs fuel rest2 (setVal vals f.valueId v)).err⟩ := by
      simp [parseLoop, hstep, hok]
    rw [hred]
    obtain ⟨hmem, hname⟩ := parseStep_assign_inv fs a rest f nm v rest2 hstep
    by_cases hid : f.valueId = id
    · right
      exact ⟨f, hmem, hid, by rw [hname]; exact List.mem_cons_self _ _⟩
    · have hsv : setVal vals f.valueId v id = vals id := by
        simp only [setVal]
        rw [if_neg (fun he => hid he.symm)]
      rcases ih with h | ⟨f2, hf2, hid2, hnm2⟩
      · left
        rw [h, hsv]
      · right
        exact ⟨f2, hf2, hid2, List.mem_cons_of_mem _ hnm2⟩
  | case7 fuel a rest vals f nm v rest2 hstep hbad =>
    left
    simp [parseLoop, hstep, hbad]

/-- The same frame law at the `parseArgs` wrapper. -/
theorem parseArgs_vals_frame (setOk : SetOk) (fs : List PFlag) (id : Nat)
    (args : List String) (vals : Vals) :
    (parseArgs setOk fs args vals).vals id = vals id ∨
    ∃ f ∈ fs, f.valueId = id ∧ f.name ∈ (parseArgs setOk fs args vals).changed :=
  parseLoop_vals_frame setOk fs id args.length args vals

/-- Every changed name reported by the parsing loop is the name of a flag in
the set. -/
theorem parseLoop_changed_sub (setOk : SetOk) (fs : List PFlag) :
    ∀ (fuel : Nat) (args : List String) (vals : Vals) (n : String),
      n ∈ (parseLoop setOk fs fuel args vals).changed →
      ∃ f ∈ fs, f.name = n := by
  intro fuel args vals
  induction fuel, args, vals using parseLoop.induct setOk fs with
  | case1 fuel vals => intro n hn; cases fuel <;> simp [parseLoop] at hn
  | case2 a rest vals => intro n hn; simp [parseLoop] at hn
  | case3 fuel a rest vals rest2 hstep =>
    intro n hn
    simp [parseLoop, hstep] at hn
  | case4 fuel a rest vals e hstep =>
    intro n hn
    simp [parseLoop, hstep] at hn
  | case5 fuel a rest vals tok rest2 hstep ih =>
    intro n hn
    have hred : (parseLoop setOk fs (fuel + 1) (a :: rest) vals).changed =
        (parseLoop setOk fs fuel rest2 vals).changed := by
      simp [parseLoop, hstep]
    rw [hred] at hn
    exact ih n hn
  | case6 fuel a rest vals f nm v rest2 hstep hok ih =>
    intro n hn
    have hred : (parseLoop setOk fs (fuel + 1) (a :: rest) vals).changed =
        nm :: (parseLoop setOk fs fuel rest2 (setVal vals f.valueId v)).changed := by
      simp [parseLoop, hstep, hok]
    rw [hred] at hn
    rcases List.mem_cons.mp hn with rfl | hn2
    · obtain ⟨hmem, hname⟩ := parseStep_assign_inv fs a rest f n v rest2 hstep
      exact ⟨f, hmem, hname⟩
    · exact ih n hn2
  | case7 fuel a rest vals f nm v rest2 hstep hbad =>
    intro n hn
    simp [parseLoop, hstep, hbad] at hn

/-- Merging into an accumulator that lacks all the new names appends them. -/
theorem mergeFlags_append :
    ∀ (toAdd acc : List PFlag),
      (∀ f ∈ toAdd, lookupFlag acc f.name = Option.none) →
      (toAdd.map (fun f => f.name)).Nodup →
      mergeFlags acc toAdd = acc ++ toAdd
  | [], acc, _, _ => by simp [mergeFlags]
  | f :: rest, acc, habs, hnd => by
    have hnd2 : (f.name :: rest.map (fun g => g.name)).Nodup := by simpa using hnd
    have hnone : lookupFlag acc f.name = Option.none := habs f (by simp)
    have hstep : mergeStep acc f = acc ++ [f] := by
      unfold mergeStep
      rw [hnone]
      simp
    have habs2 : ∀ g ∈ rest, lookupFlag (acc ++ [f]) g.name = Option.none := by
      intro g hg
      have hgname : g.name ≠ f.name := by
        intro he
        exact (List.nodup_cons.mp hnd2).1 (he ▸ List.mem_map.mpr ⟨g, hg, rfl⟩)
      unfold lookupFlag
      rw [find?_append_none _ _ _ (habs g (by simp [hg]))]
      simp [Ne.symm hgname]
    rw [mergeFlags_eq_foldl, List.foldl_cons, hstep, ← mergeFlags_eq_foldl,
      mergeFlags_append rest (acc ++ [f]) habs2 (List.nodup_cons.mp hnd2).2]
    simp

/-- Merging a fresh flag set into an empty accumulator yields it unchanged. -/
theorem mergeFlags_nil (l : List PFlag) (hnd : (l.map (fun f => f.name)).Nodup) :
    mergeFlags [] l = l := by
  rw [mergeFlags_append l [] (fun f _ => rfl) hnd]
  simp

/-- `FlagSet()` only reads the flag binding fields, so source marking does not
change it. -/
theorem flagSetOf_map (f : Opt → Opt) (l : List Opt)
    (h : ∀ o, (f o).flag = o.flag ∧ (f o).flagShorthand = o.flagShorthand ∧
      (f o).noOptDefVal = o.noOptDefVal ∧ (f o).valueId = o.valueId) :
    flagSetOf (l.map f) = flagSetOf l := by
  unfold flagSetOf
  rw [List.filterMap_map]
  refine List.filterMap_congr (fun o _ => ?_)
  obtain ⟨h1, h2, h3, h4⟩ := h o
  simp only [Function.comp_apply, h1, h2, h3, h4]

/-- Membership in the generated flag set. -/
theorem flagSetOf_mem (opts : List Opt) (f : PFlag) (h : f ∈ flagSetOf opts) :
    ∃ o ∈ opts, o.flag ≠ "" ∧ f.name = o.flag ∧ f.valueId = o.valueId := by
  unfold flagSetOf at h
  obtain ⟨o, ho, he⟩ := List.mem_filterMap.mp h
  by_cases hfl : o.flag = ""
  · rw [if_pos hfl] at he
    exact Option.noConfusion he
  · rw [if_neg hfl] at he
    cases he with
    | refl => exact ⟨o, ho, hfl, rfl, rfl⟩

/-- The slot content after one group update, at that group's own identity. -/
theorem groupValUpd_at (setOk : SetOk) (g : List Opt) (id : Nat) (w : Vals) :
    groupValUpd setOk g id w id =
      (if winningSourceOf g ≠ .none then w id
       else
         match (pickDefault g).1 with
         | Option.none => w id
         | Option.some c => if setOk id c.defVal then c.defVal else w id) := by
  unfold groupValUpd
  by_cases hw : winningSourceOf g ≠ .none
  · rw [if_pos hw, if_pos hw]
  · rw [if_neg hw, if_neg hw]
    cases (pickDefault g).1 with
    | none => rfl
    | some c =>
      by_cases hok : setOk id c.defVal <;> simp [hok, setVal]

/-- Group updates of other groups do not move a slot. -/
theorem groupValUpd_other (setOk : SetOk) (g : List Opt) (id2 id : Nat)
    (h : id2 ≠ id) (w : Vals) :
    groupValUpd setOk g id2 w id = w id := by
  unfold groupValUpd
  by_cases hw : winningSourceOf g ≠ .none
  · rw [if_pos hw]
  · rw [if_neg hw]
    cases (pickDefault g).1 with
    | none => rfl
    | some c =>
      by_cases hok : setOk id2 c.defVal <;> simp [hok, setVal, Ne.symm h]

theorem foldl_groupValUpd_frame (setOk : SetOk) (opts : List Opt) (id : Nat) :
    ∀ (ids : List Nat), id ∉ ids → ∀ (w : Vals),
      (ids.foldl (fun v i2 =>
        groupValUpd setOk (opts.filter (fun x => x.valueId == i2)) i2 v) w) id = w id
  | [], _, _ => rfl
  | i2 :: rest, h, w => by
    rw [List.foldl_cons]
    have h2 : i2 ≠ id := by
      intro he
      exact h (by simp [he])
    rw [foldl_groupValUpd_frame setOk opts id rest (fun he => h (by simp [he]))]
    exact groupValUpd_other setOk _ i2 id h2 w

theorem foldl_groupValUpd_at (setOk : SetOk) (opts : List Opt) (id : Nat) :
    ∀ (ids : List Nat), ids.Nodup → id ∈ ids → ∀ (w : Vals),
      (ids.foldl (fun v i2 =>
        groupValUpd setOk (opts.filter (fun x => x.valueId == i2)) i2 v) w) id =
        groupValUpd setOk (opts.filter (fun x => x.valueId == id)) id w id
  | [], _, hmem, _ => by simp at hmem
  | i2 :: rest, hnd, hmem, w => by
    rw [List.foldl_cons]
    by_cases he : i2 = id
    · subst he
      rw [foldl_groupValUpd_frame setOk opts i2 rest (List.nodup_cons.mp hnd).1]
    · have hmem2 : id ∈ rest := by
        rcases List.mem_cons.mp hmem with h | h
        · exact absurd h.symm he
        · exact h
      rw [foldl_groupValUpd_at setOk opts id rest (List.nodup_cons.mp hnd).2 hmem2]
      rw [groupValUpd_at, groupValUpd_at,
        groupValUpd_other setOk _ i2 id he w]

/-- The slot content of a uniquely-owned value after `SetDefaults`. -/
theorem SetDefaults_vals_at (setOk : SetOk) (rs : RState) (o : Opt)
    (hnd : (rs.opts.map (fun x => x.valueId)).Nodup) (hmem : o ∈ rs.opts) :
    (SetDefaults setOk rs).1.vals o.valueId =
      (if o.valueSource ≠ .none then rs.vals o.valueId
       else if o.defVal ≠ "" then
         (if setOk o.valueId o.defVal then o.defVal else rs.vals o.valueId)
       else rs.vals o.valueId) := by
  have hfil : rs.opts.filter (fun x => x.valueId == o.valueId) = [o] :=
    filter_valueId_nodup rs.opts hnd o hmem
  have hin : o.valueId ∈ dedupIds rs.opts := by
    simp only [dedupIds, List.mem_dedup]
    exact List.mem_map.mpr ⟨o, hmem, rfl⟩
  have hndids : (dedupIds rs.opts).Nodup := List.nodup_dedup _
  rw [SetDefaults_vals, foldl_groupValUpd_at setOk rs.opts o.valueId _ hndids hin,
    hfil, groupValUpd_at, winningSourceOf_singleton]
  by_cases hs : o.valueSource ≠ .none
  · rw [if_pos hs, if_pos hs]
  · rw [if_neg hs, if_neg hs]
    by_cases hd : o.defVal ≠ ""
    · rw [if_pos hd]
      have : (pickDefault [o]).1 = Option.some o := by
        simp [pickDefault, pdStep, hd]
      rw [this]
    · rw [if_neg hd]
      push_neg at hd
      have : (pickDefault [o]).1 = Option.none := by
        simp [pickDefault, pdStep, hd]
      rw [this]

/-- Per-option provenance effect of the config stage. -/
def yamlMarkOf (doc : YDoc) (o : Opt) : Opt :=
  if (yamlValOf doc o).isSome then { o with valueSource := .yaml } else o

/-- Per-option provenance effect of the flag-marking stage. -/
def flagMarkOf (fs : List PFlag) (changed : List String) (o : Opt) : Opt :=
  if (lookupFlag fs o.flag).isSome ∧ o.flag ∈ changed then
    { o with valueSource := .flag }
  else o

theorem markFlagSources_eq (fs : List PFlag) (changed : List String)
    (opts : List Opt) :
    markFlagSources fs changed opts = opts.map (flagMarkOf fs changed) := rfl

theorem parseEnvList_opts_mark (setOk : SetOk) (envs : List EnvVar)
    (opts : List Opt) (vals : Vals) :
    (parseEnvList setOk envs opts vals).1 = opts.map (envMarkOf envs) := by
  rw [parseEnvList_opts]
  exact List.map_congr_left (fun o _ => rfl)

theorem applyYAMLList_opts_mark (setOk : SetOk) (doc : YDoc)
    (opts : List Opt) (vals : Vals) :
    (applyYAMLList setOk doc opts vals).1 = opts.map (yamlMarkOf doc) := by
  rw [applyYAMLList_opts]
  exact List.map_congr_left (fun o _ => rfl)

theorem envMarkOf_pres (envs : List EnvVar) (o : Opt) :
    (envMarkOf envs o).flag = o.flag ∧
    (envMarkOf envs o).flagShorthand = o.flagShorthand ∧
    (envMarkOf envs o).noOptDefVal = o.noOptDefVal ∧
    (envMarkOf envs o).valueId = o.valueId ∧
    (envMarkOf envs o).yamlKey = o.yamlKey ∧
    (envMarkOf envs o).defVal = o.defVal := by
  unfold envMarkOf
  by_cases h : (envValOf envs o).isSome <;> simp [h]

theorem envMarkOf_source (envs : List EnvVar) (o : Opt) :
    (envMarkOf envs o).valueSource =
      (if (envValOf envs o).isSome then VSource.env else o.valueSource) := by
  unfold envMarkOf
  by_cases h : (envValOf envs o).isSome <;> simp [h]

theorem flagMarkOf_pres (fs : List PFlag) (changed : List String) (o : Opt) :
    (flagMarkOf fs changed o).flag = o.flag ∧
    (flagMarkOf fs changed o).flagShorthand = o.flagShorthand ∧
    (flagMarkOf fs changed o).noOptDefVal = o.noOptDefVal ∧
    (flagMarkOf fs changed o).valueId = o.valueId ∧
    (flagMarkOf fs changed o).yamlKey = o.yamlKey ∧
    (flagMarkOf fs changed o).defVal = o.defVal := by
  unfold flagMarkOf
  by_cases h : (lookupFlag fs o.flag).isSome ∧ o.flag ∈ changed <;> simp [h]

theorem flagMarkOf_source (fs : List PFlag) (changed : List String) (o : Opt) :
    (flagMarkOf fs changed o).valueSource =
      (if (lookupFlag fs o.flag).isSome ∧ o.flag ∈ changed then VSource.flag
       else o.valueSource) := by
  unfold flagMarkOf
  by_cases h : (lookupFlag fs o.flag).isSome ∧ o.flag ∈ changed <;> simp [h]

theorem yamlMarkOf_pres (doc : YDoc) (o : Opt) :
    (yamlMarkOf doc o).flag = o.flag ∧
    (yamlMarkOf doc o).flagShorthand = o.flagShorthand ∧
    (yamlMarkOf doc o).noOptDefVal = o.noOptDefVal ∧
    (yamlMarkOf doc o).valueId = o.valueId ∧
    (yamlMarkOf doc o).yamlKey = o.yamlKey ∧
    (yamlMarkOf doc o).defVal = o.defVal := by
  unfold yamlMarkOf
  by_cases h : (yamlValOf doc o).isSome <;> simp [h]

theorem yamlMarkOf_source (doc : YDoc) (o : Opt) :
    (yamlMarkOf doc o).valueSource =
      (if (yamlValOf doc o).isSome then VSource.yaml else o.valueSource) := by
  unfold yamlMarkOf
  by_cases h : (yamlValOf doc o).isSome <;> simp [h]

theorem groupNewSource_singleton (x : Opt) :
    groupNewSource [x] =
      (if x.valueSource ≠ .none then Option.some x.valueSource
       else if x.defVal ≠ "" then Option.some .default else Option.none) := by
  unfold groupNewSource
  rw [winningSourceOf_singleton]
  by_cases hs : x.valueSource ≠ .none
  · rw [if_pos hs, if_pos hs]
  · rw [if_neg hs, if_neg hs]
    by_cases hd : x.defVal ≠ ""
    · have hp : (pickDefault [x]).1 = Option.some x := by simp [pickDefault, pdStep, hd]
      rw [hp, if_pos hd]
      simp
    · push_neg at hd
      have hp : (pickDefault [x]).1 = Option.none := by simp [pickDefault, pdStep, hd]
      rw [hp]
      simp [hd]

/-- The highest-priority source that actually supplied a usable value to an
option in one invocation (the specification predicate of the precedence law):
a flag changed by the parse, else a non-empty environment value (with the
`HOMEBREW_` fallback), else a config-document entry at the option's path, else
a non-empty default literal, else nothing. -/
def highestSuppliedSource (o : Opt) (changed : List String)
    (envs : List EnvVar) (doc : YDoc) : VSource :=
  if o.flag ∈ changed then .flag
  else if (envValOf envs o).isSome then .env
  else if o.yamlKey ≠ "" ∧ (ydocGet doc o.yamlKey).isSome then .yaml
  else if o.defVal ≠ "" then .default
  else .none

/-- C1.  Precedence law: after the env, flag, config and default stages of one
invocation have run over an option set with distinct value slots and slots
that accept every raw string, each option's final `ValueSource` is the
highest-priority source that actually supplied a value (`flag > env > yaml >
default > none`), and no lower-priority stage overwrites the value a
higher-priority source stored. -/
theorem C1_precedence_law (setOk : SetOk) (envs : List EnvVar) (doc : YDoc)
    (rs : RState) (allArgs : List String) (i : Nat) (o : Opt) (R : ResolveOut)
    (hi : i < rs.opts.length)
    (hdef : rs.opts.getD i {} = o)
    (hnd : (rs.opts.map (fun x => x.valueId)).Nodup)
    (hfl : ((flagSetOf rs.opts).map (fun f => f.name)).Nodup)
    (hsrc : ∀ o2 ∈ rs.opts, o2.valueSource = .none)
    (hok : ∀ id s, setOk id s = true)
    (hR : resolveNode setOk envs doc false rs.opts rs.vals [] allArgs []
      Option.none = R) :
    (R.opts.getD i {}).valueSource = highestSuppliedSource o R.changed envs doc ∧
    (highestSuppliedSource o R.changed envs doc = .flag →
      R.vals o.valueId = R.valsAfterFlags o.valueId) ∧
    (∀ v, highestSuppliedSource o R.changed envs doc = .env →
      envValOf envs o = Option.some v → R.vals o.valueId = v) ∧
    (∀ v, highestSuppliedSource o R.changed envs doc = .yaml →
      ydocGet doc o.yamlKey = Option.some v → R.vals o.valueId = v) ∧
    (highestSuppliedSource o R.changed envs doc = .default →
      R.vals o.valueId = o.defVal) ∧
    (highestSuppliedSource o R.changed envs doc = .none →
      R.vals o.valueId = rs.vals o.valueId) := by
  have hmem : o ∈ rs.opts := by
    rw [← hdef, List.getD_eq_getElem rs.opts {} hi]
    exact List.getElem_mem hi
  have hidx : rs.opts[i] = o := by
    rw [← List.getD_eq_getElem rs.opts {} hi]
    exact hdef
  have hinj := List.inj_on_of_nodup_map hnd
  have huniq : ∀ o2 ∈ rs.opts, o2.valueId = o.valueId → o2 = o :=
    fun o2 h2 he => hinj h2 hmem he
  have hndL : rs.opts.Nodup := List.Nodup.of_map _ hnd
  subst hR
  set P : RNIn :=
    ⟨setOk, envs, doc, false, rs.opts, rs.vals, [], allArgs, [], Option.none⟩
  have hre : resolveNode setOk envs doc false rs.opts rs.vals [] allArgs []
      Option.none =
      { opts := (rnSD P).1.opts, vals := (rnSD P).1.vals,
        valsAfterFlags := (rnPR P).vals,
        envErrs := (rnPE P).2.2, yamlErrs := (rnYA P).2.2,
        defErrs := (rnSD P).2,
        parsedArgs := (rnPR P).positionals, flagErr := (rnPR P).err,
        changed := (rnPR P).changed, fs := rnFS P } := rfl
  rw [hre]
  dsimp only
  -- stage characterizations
  have hPE : rnPE P = parseEnvList setOk envs rs.opts rs.vals := rfl
  have hPR : rnPR P = parseArgs setOk (rnFS P) allArgs (rnPE P).2.1 := rfl
  have hpe1 : (rnPE P).1 = rs.opts.map (envMarkOf envs) := by
    rw [hPE, parseEnvList_opts_mark]
  have hfsOf : flagSetOf (rnPE P).1 = flagSetOf rs.opts := by
    rw [hpe1]
    exact flagSetOf_map _ _ (fun x =>
      ⟨(envMarkOf_pres envs x).1, (envMarkOf_pres envs x).2.1,
        (envMarkOf_pres envs x).2.2.1, (envMarkOf_pres envs x).2.2.2.1⟩)
  have hFSeq : rnFS P = flagSetOf rs.opts := by
    rw [show rnFS P = mergeFlags [] (flagSetOf (rnPE P).1) from rfl, hfsOf,
      mergeFlags_nil _ hfl]
  have hchsub : ∀ n, n ∈ (rnPR P).changed → ∃ f ∈ rnFS P, f.name = n := by
    intro n hn
    rw [hPR] at hn
    exact parseLoop_changed_sub setOk (rnFS P) allArgs.length allArgs
      (rnPE P).2.1 n hn
  have hFSid : ∀ f ∈ rnFS P, f.valueId = o.valueId → f.name = o.flag := by
    intro f hf hfid
    rw [hFSeq] at hf
    obtain ⟨a, ha, _, hname, hid⟩ := flagSetOf_mem rs.opts f hf
    have hao : a = o := huniq a ha (by rw [← hid, hfid])
    subst hao
    exact hname
  -- composite option-list characterizations
  have hopts2 : rnOpts2 P = (rnPE P).1.map (flagMarkOf (rnFS P) (rnPR P).changed) := by
    rw [show rnOpts2 P = markFlagSources (rnFS P) (rnPR P).changed (rnPE P).1 from rfl,
      markFlagSources_eq]
  have hopts2c : rnOpts2 P =
      rs.opts.map (fun x => flagMarkOf (rnFS P) (rnPR P).changed (envMarkOf envs x)) := by
    rw [hopts2, hpe1, List.map_map]
    rfl
  have hya1 : (rnYA P).1 = (rnOpts2 P).map (yamlMarkOf doc) := by
    rw [show rnYA P = applyYAMLList setOk doc (rnOpts2 P) (rnPR P).vals from rfl,
      applyYAMLList_opts_mark]
  have hya1c : (rnYA P).1 = rs.opts.map (fun x =>
      yamlMarkOf doc (flagMarkOf (rnFS P) (rnPR P).changed (envMarkOf envs x))) := by
    rw [hya1, hopts2c, List.map_map]
    rfl
  have hsd1 : (rnSD P).1.opts = (rnYA P).1.map (decideOpt (rnYA P).1) := by
    rw [show rnSD P = SetDefaults setOk ⟨(rnYA P).1, (rnYA P).2.1⟩ from rfl]
    exact SetDefaults_opts setOk ⟨(rnYA P).1, (rnYA P).2.1⟩
  -- field preservation of the composite
  have hgpres : ∀ x : Opt,
      (yamlMarkOf doc (flagMarkOf (rnFS P) (rnPR P).changed (envMarkOf envs x))).valueId
        = x.valueId := by
    intro x
    rw [(yamlMarkOf_pres doc _).2.2.2.1, (flagMarkOf_pres _ _ _).2.2.2.1,
      (envMarkOf_pres envs x).2.2.2.1]
  have hnd3 : ((rnYA P).1.map (fun x => x.valueId)).Nodup := by
    rw [hya1c, map_valueId_of_preserve _ hgpres]
    exact hnd
  -- the option's image through the three marking stages
  have hlen3 : i < (rnYA P).1.length := by
    rw [hya1c, List.length_map]
    exact hi
  have hel3 : (rnYA P).1[i] =
      yamlMarkOf doc (flagMarkOf (rnFS P) (rnPR P).changed (envMarkOf envs o)) := by
    have hlen3b : i < (rs.opts.map (fun x =>
        yamlMarkOf doc (flagMarkOf (rnFS P) (rnPR P).changed (envMarkOf envs x)))).length := by
      rw [List.length_map]
      exact hi
    rw [← List.getD_eq_getElem _ {} hlen3, hya1c,
      List.getD_eq_getElem _ {} hlen3b, List.getElem_map, hidx]
  have hmem3 :
      yamlMarkOf doc (flagMarkOf (rnFS P) (rnPR P).changed (envMarkOf envs o)) ∈ (rnYA P).1 := by
    rw [← hel3]
    exact List.getElem_mem hlen3
  have hgid :
      (yamlMarkOf doc (flagMarkOf (rnFS P) (rnPR P).changed (envMarkOf envs o))).valueId
        = o.valueId := hgpres o
  have hfinal : (rnSD P).1.opts.getD i {} =
      decideOpt (rnYA P).1
        (yamlMarkOf doc (flagMarkOf (rnFS P) (rnPR P).changed (envMarkOf envs o))) := by
    have hlen4 : i < ((rnYA P).1.map (decideOpt (rnYA P).1)).length := by
      rw [List.length_map]
      exact hlen3
    rw [hsd1, List.getD_eq_getElem _ {} hlen4, List.getElem_map, hel3]
  have hgdef :
      (yamlMarkOf doc (flagMarkOf (rnFS P) (rnPR P).changed (envMarkOf envs o))).defVal
        = o.defVal := by
    rw [(yamlMarkOf_pres doc _).2.2.2.2.2, (flagMarkOf_pres _ _ _).2.2.2.2.2,
      (envMarkOf_pres envs o).2.2.2.2.2]
  -- final source in terms of the composite image
  have hsrcfinal : ((rnSD P).1.opts.getD i {}).valueSource =
      (if (yamlMarkOf doc (flagMarkOf (rnFS P) (rnPR P).changed (envMarkOf envs o))).valueSource ≠ .none
       then (yamlMarkOf doc (flagMarkOf (rnFS P) (rnPR P).changed (envMarkOf envs o))).valueSource
       else if o.defVal ≠ "" then .default
       else (yamlMarkOf doc (flagMarkOf (rnFS P) (rnPR P).changed (envMarkOf envs o))).valueSource) := by
    rw [hfinal, decideOpt_source,
      filter_valueId_nodup _ hnd3 _ hmem3, groupNewSource_singleton, hgdef]
    by_cases h1 :
        (yamlMarkOf doc (flagMarkOf (rnFS P) (rnPR P).changed (envMarkOf envs o))).valueSource ≠ .none
    · rw [if_pos h1, if_pos h1]
    · rw [if_neg h1, if_neg h1]
      by_cases h2 : o.defVal ≠ ""
      · rw [if_pos h2, if_pos h2]
      · rw [if_neg h2, if_neg h2]
  -- store after SetDefaults at the option's slot
  have hsdvals : (rnSD P).1.vals o.valueId =
      (if (yamlMarkOf doc (flagMarkOf (rnFS P) (rnPR P).changed (envMarkOf envs o))).valueSource ≠ .none
       then (rnYA P).2.1 o.valueId
       else if o.defVal ≠ "" then o.defVal
       else (rnYA P).2.1 o.valueId) := by
    have := SetDefaults_vals_at setOk ⟨(rnYA P).1, (rnYA P).2.1⟩
      (yamlMarkOf doc (flagMarkOf (rnFS P) (rnPR P).changed (envMarkOf envs o)))
      hnd3 hmem3
    rw [show rnSD P = SetDefaults setOk ⟨(rnYA P).1, (rnYA P).2.1⟩ from rfl, ← hgid]
    rw [this, hgdef, hgid]
    by_cases h1 :
        (yamlMarkOf doc (flagMarkOf (rnFS P) (rnPR P).changed (envMarkOf envs o))).valueSource ≠ .none
    · rw [if_pos h1, if_pos h1]
    · rw [if_neg h1, if_neg h1]
      by_cases h2 : o.defVal ≠ ""
      · rw [if_pos h2, if_pos h2, if_pos (hok o.valueId o.defVal)]
      · rw [if_neg h2, if_neg h2]
  -- store after the config stage at the option's slot
  have hx2mem : flagMarkOf (rnFS P) (rnPR P).changed (envMarkOf envs o) ∈ rnOpts2 P := by
    have hlen2 : i < (rnOpts2 P).length := by
      rw [hopts2c, List.length_map]
      exact hi
    have hlen2b : i < (rs.opts.map (fun x =>
        flagMarkOf (rnFS P) (rnPR P).changed (envMarkOf envs x))).length := by
      rw [List.length_map]
      exact hi
    have hel2 : (rnOpts2 P)[i] = flagMarkOf (rnFS P) (rnPR P).changed (envMarkOf envs o) := by
      rw [← List.getD_eq_getElem _ {} hlen2, hopts2c,
        List.getD_eq_getElem _ {} hlen2b, List.getElem_map, hidx]
    rw [← hel2]
    exact List.getElem_mem hlen2
  have hg2pres : ∀ x : Opt,
      (flagMarkOf (rnFS P) (rnPR P).changed (envMarkOf envs x)).valueId = x.valueId := by
    intro x
    rw [(flagMarkOf_pres _ _ _).2.2.2.1, (envMarkOf_pres envs x).2.2.2.1]
  have hnd2 : ((rnOpts2 P).map (fun x => x.valueId)).Nodup := by
    rw [hopts2c, map_valueId_of_preserve _ hg2pres]
    exact hnd
  have hg2id : (flagMarkOf (rnFS P) (rnPR P).changed (envMarkOf envs o)).valueId = o.valueId :=
    hg2pres o
  have huniq2 : ∀ b ∈ rnOpts2 P,
      b.valueId = (flagMarkOf (rnFS P) (rnPR P).changed (envMarkOf envs o)).valueId →
      b = flagMarkOf (rnFS P) (rnPR P).changed (envMarkOf envs o) := by
    intro b hb hbid
    rw [hopts2c] at hb
    obtain ⟨b0, hb0, rfl⟩ := List.mem_map.mp hb
    rw [hg2pres b0, hg2id] at hbid
    rw [huniq b0 hb0 hbid]
  have hyavals : (rnYA P).2.1 o.valueId =
      (match yamlValOf doc (flagMarkOf (rnFS P) (rnPR P).changed (envMarkOf envs o)) with
       | Option.none => (rnPR P).vals o.valueId
       | Option.some v => if setOk o.valueId v then v else (rnPR P).vals o.valueId) := by
    have := applyYAMLList_vals_at setOk doc (rnOpts2 P) (rnPR P).vals
      (flagMarkOf (rnFS P) (rnPR P).changed (envMarkOf envs o)) hx2mem huniq2
      (List.Nodup.of_map _ hnd2)
    rw [show (rnYA P).2.1 = (applyYAMLList setOk doc (rnOpts2 P) (rnPR P).vals).2.1 from rfl,
      ← hg2id, this, hg2id]
  -- store after the env stage at the option's slot
  have hpevals : (rnPE P).2.1 o.valueId =
      (match envValOf envs o with
       | Option.none => rs.vals o.valueId
       | Option.some v => if setOk o.valueId v then v else rs.vals o.valueId) := by
    rw [hPE]
    exact parseEnvList_vals_at setOk envs rs.opts rs.vals o hmem huniq hndL
  -- case split on the winning source
  by_cases hflag : o.flag ∈ (rnPR P).changed
  · -- flag wins
    have hsup : highestSuppliedSource o (rnPR P).changed envs doc = .flag := by
      unfold highestSuppliedSource
      rw [if_pos hflag]
    obtain ⟨f, hf, hfn⟩ := hchsub o.flag hflag
    have hlook : (lookupFlag (rnFS P) o.flag).isSome := by
      unfold lookupFlag
      rw [List.find?_isSome]
      exact ⟨f, hf, by simp [hfn]⟩
    have hx2src : (flagMarkOf (rnFS P) (rnPR P).changed (envMarkOf envs o)).valueSource
        = .flag := by
      rw [flagMarkOf_source, (envMarkOf_pres envs o).1, if_pos ⟨hlook, hflag⟩]
    have hyvnone : yamlValOf doc (flagMarkOf (rnFS P) (rnPR P).changed (envMarkOf envs o))
        = Option.none := by
      unfold yamlValOf
      by_cases hk : (flagMarkOf (rnFS P) (rnPR P).changed (envMarkOf envs o)).yamlKey = ""
      · rw [if_pos hk]
      · rw [if_neg hk, if_pos (Or.inl hx2src)]
    have hgeq : yamlMarkOf doc (flagMarkOf (rnFS P) (rnPR P).changed (envMarkOf envs o))
        = flagMarkOf (rnFS P) (rnPR P).changed (envMarkOf envs o) := by
      unfold yamlMarkOf
      rw [hyvnone]
      simp
    have hgsrc : (yamlMarkOf doc (flagMarkOf (rnFS P) (rnPR P).changed (envMarkOf envs o))).valueSource
        = .flag := by
      rw [hgeq]
      exact hx2src
    refine ⟨?_, ?_, ?_, ?_, ?_, ?_⟩
    · rw [hsrcfinal, hsup, hgsrc]
      simp
    · intro _
      rw [hsdvals, hgsrc]
      rw [if_pos (by simp)]
      rw [hyavals, hyvnone]
    · intro v hv
      rw [hsup] at hv
      cases hv
    · intro v hv
      rw [hsup] at hv
      cases hv
    · intro hv
      rw [hsup] at hv
      cases hv
    · intro hv
      rw [hsup] at hv
      cases hv
  · -- flag does not win
    have hprframe : (rnPR P).vals o.valueId = (rnPE P).2.1 o.valueId := by
      rcases parseArgs_vals_frame setOk (rnFS P) o.valueId allArgs (rnPE P).2.1 with
        h | ⟨f, hf, hfid, hfn⟩
      · rw [hPR]
        exact h
      · exact absurd ((hFSid f hf hfid) ▸ hfn) hflag
    have hx2eq : flagMarkOf (rnFS P) (rnPR P).changed (envMarkOf envs o)
        = envMarkOf envs o := by
      unfold flagMarkOf
      rw [(envMarkOf_pres envs o).1]
      rw [if_neg (fun hc => hflag hc.2)]
    by_cases henv : (envValOf envs o).isSome
    · -- env wins
      have hsup : highestSuppliedSource o (rnPR P).changed envs doc = .env := by
        unfold highestSuppliedSource
        rw [if_neg hflag, if_pos henv]
      have hx1src : (envMarkOf envs o).valueSource = .env := by
        rw [envMarkOf_source, if_pos henv]
      have hyvnone : yamlValOf doc (envMarkOf envs o) = Option.none := by
        unfold yamlValOf
        by_cases hk : (envMarkOf envs o).yamlKey = ""
        · rw [if_pos hk]
        · rw [if_neg hk, if_pos (Or.inr hx1src)]
      have hgeq : yamlMarkOf doc (flagMarkOf (rnFS P) (rnPR P).changed (envMarkOf envs o))
          = envMarkOf envs o := by
        rw [hx2eq]
        unfold yamlMarkOf
        rw [hyvnone]
        simp
      have hgsrc : (yamlMarkOf doc (flagMarkOf (rnFS P) (rnPR P).changed (envMarkOf envs o))).valueSource
          = .env := by
        rw [hgeq]
        exact hx1src
      refine ⟨?_, ?_, ?_, ?_, ?_, ?_⟩
      · rw [hsrcfinal, hsup, hgsrc]
        simp
      · intro hv
        rw [hsup] at hv
        cases hv
      · intro v _ hv
        rw [hsdvals, hgsrc, if_pos (by simp)]
        rw [hyavals, hx2eq, hyvnone]
        show (rnPR P).vals o.valueId = v
        rw [hprframe, hpevals, hv]
        simp [hok o.valueId v]
      · intro v hv
        rw [hsup] at hv
        cases hv
      · intro hv
        rw [hsup] at hv
        cases hv
      · intro hv
        rw [hsup] at hv
        cases hv
    · -- env does not win
      have hx1eq : envMarkOf envs o = o := by
        unfold envMarkOf
        rw [if_neg henv]
      have hvnone : envValOf envs o = Option.none :=
        Option.not_isSome_iff_eq_none.mp henv
      have hosrc : o.valueSource = .none := hsrc o hmem
      have hnotfe : ¬(o.valueSource = .flag ∨ o.valueSource = .env) := by
        rw [hosrc]
        intro hc
        rcases hc with hc | hc <;> exact VSource.noConfusion hc
      by_cases hyaml : o.yamlKey ≠ "" ∧ (ydocGet doc o.yamlKey).isSome
      · -- yaml wins
        have hsup : highestSuppliedSource o (rnPR P).changed envs doc = .yaml := by
          unfold highestSuppliedSource
          rw [if_neg hflag, if_neg henv, if_pos hyaml]
        have hyv : yamlValOf doc o = ydocGet doc o.yamlKey := by
          unfold yamlValOf
          rw [if_neg hyaml.1, if_neg hnotfe]
        have hyvsome : (yamlValOf doc o).isSome := by
          rw [hyv]
          exact hyaml.2
        have hgeq : yamlMarkOf doc (flagMarkOf (rnFS P) (rnPR P).changed (envMarkOf envs o))
            = { o with valueSource := .yaml } := by
          rw [hx2eq, hx1eq]
          unfold yamlMarkOf
          rw [if_pos hyvsome]
        refine ⟨?_, ?_, ?_, ?_, ?_, ?_⟩
        · rw [hsrcfinal, hsup, hgeq]
          simp
        · intro hv
          rw [hsup] at hv
          cases hv
        · intro v hv
          rw [hsup] at hv
          cases hv
        · intro v _ hv
          rw [hsdvals, hgeq]
          rw [if_pos (by simp)]
          rw [hyavals, hx2eq, hx1eq, hyv, hv]
          simp [hok o.valueId v]
        · intro hv
          rw [hsup] at hv
          cases hv
        · intro hv
          rw [hsup] at hv
          cases hv
      · -- neither flag, env nor yaml supplied
        have hyvnone : yamlValOf doc o = Option.none := by
          unfold yamlValOf
          by_cases hk : o.yamlKey = ""
          · rw [if_pos hk]
          · rw [if_neg hk, if_neg hnotfe]
            cases hdg : ydocGet doc o.yamlKey with
            | none => rfl
            | some v => exact absurd ⟨hk, by rw [hdg]; rfl⟩ hyaml
        have hgeq : yamlMarkOf doc (flagMarkOf (rnFS P) (rnPR P).changed (envMarkOf envs o))
            = o := by
          rw [hx2eq, hx1eq]
          unfold yamlMarkOf
          rw [hyvnone]
          simp
        have hchaineq : (rnYA P).2.1 o.valueId = rs.vals o.valueId := by
          rw [hyavals, hx2eq, hx1eq, hyvnone]
          rw [hprframe, hpevals, hvnone]
        by_cases hdefv : o.defVal ≠ ""
        · -- default wins
          have hsup : highestSuppliedSource o (rnPR P).changed envs doc = .default := by
            unfold highestSuppliedSource
            rw [if_neg hflag, if_neg henv, if_neg hyaml, if_pos hdefv]
          refine ⟨?_, ?_, ?_, ?_, ?_, ?_⟩
          · rw [hsrcfinal, hsup, hgeq, hosrc]
            rw [if_neg (by simp), if_pos hdefv]
          · intro hv
            rw [hsup] at hv
            cases hv
          · intro v hv
            rw [hsup] at hv
            cases hv
          · intro v hv
            rw [hsup] at hv
            cases hv
          · intro _
            rw [hsdvals, hgeq, hosrc]
            rw [if_neg (by simp), if_pos hdefv]
          · intro hv
            rw [hsup] at hv
            cases hv
        · -- nothing supplied
          have hsup : highestSuppliedSource o (rnPR P).changed envs doc = .none := by
            unfold highestSuppliedSource
            rw [if_neg hflag, if_neg henv, if_neg hyaml, if_neg hdefv]
          refine ⟨?_, ?_, ?_, ?_, ?_, ?_⟩
          · rw [hsrcfinal, hsup, hgeq, hosrc]
            rw [if_neg (by simp), if_neg hdefv]
          · intro hv
            rw [hsup] at hv
            cases hv
          · intro v hv
            rw [hsup] at hv
            cases hv
          · intro v hv
            rw [hsup] at hv
            cases hv
          · intro hv
            rw [hsup] at hv
            cases hv
          · intro _
            rw [hsdvals, hgeq, hosrc]
            rw [if_neg (by simp), if_neg hdefv]
            exact hchaineq

/-- C2.  During dispatch, a flag redeclared by a descendant replaces the
inherited entry entirely: the merge loop rebuilds the accumulated set without
the old entry (`copyFlagSetWithout`) and adds the new one, so afterwards the
descendant's flag is the set's only entry under that name, while all names the
descendant does not declare resolve as before. -/
theorem C2_flag_override (acc toAdd : List PFlag)
    (hnew : (toAdd.map (fun f => f.name)).Nodup) :
    (∀ f ∈ toAdd,
      lookupFlag (mergeFlags acc toAdd) f.name = Option.some f ∧
        (mergeFlags acc toAdd).filter (fun g => g.name == f.name) = [f]) ∧
    (∀ n, n ∉ toAdd.map (fun f => f.name) →
      lookupFlag (mergeFlags acc toAdd) n = lookupFlag acc n) :=
  mergeFlags_override toAdd acc hnew

/-- The help dispatch can only end in the three help-path outcomes. -/
theorem helpOutcome_cases (c : Cmd) (args : List String) :
    helpOutcome c args = .ranHelpHandler args ∨
    helpOutcome c args = .unknownSubcommand args ∨
    helpOutcome c args = .ranDefaultHelp := by
  unfold helpOutcome
  by_cases hh : c.hasHelpHandler = true
  · rw [if_pos hh]
    exact Or.inl rfl
  · rw [if_neg hh]
    by_cases ha : args ≠ []
    · rw [if_pos ha]
      exact Or.inr (Or.inl rfl)
    · rw [if_neg ha]
      exact Or.inr (Or.inr rfl)

/-- C3.  Required-option enforcement: when at least one required option is
still at `ValueSource = none` after resolution and the flag parse reported no
error, `run` fails with a single `MissingRequiredError` listing the name of
every missing required option (not just the first), and the handler is never
invoked; when the recorded flag-parse error is `pflag.ErrHelp` (the user asked
for `--help`), the missing-required error is suppressed and the help path runs
instead. -/
theorem C3_missing_required_and_help_suppression (c : Cmd) (opts : List Opt)
    (st : RunSt) (parsedArgs : List String)
    (hmiss : missingNamesOf opts ≠ []) :
    (st.flagParseErr = Option.none →
      finishRun false c opts st parsedArgs =
        .missingRequired (missingNamesOf opts) ∧
      (∀ cn as, finishRun false c opts st parsedArgs ≠ .ranHandler cn as) ∧
      (∀ o2 ∈ opts, o2.required = true → o2.valueSource = .none →
        (if o2.name = "" then o2.flag else o2.name) ∈ missingNamesOf opts)) ∧
    (st.flagParseErr = Option.some .help → c.rawArgs = false → c.version = "" →
      finishRun false c opts st parsedArgs =
        helpOutcome c (parsedArgs.drop st.commandDepth) ∧
      (∀ names, finishRun false c opts st parsedArgs ≠ .missingRequired names) ∧
      (∀ cn as, finishRun false c opts st parsedArgs ≠ .ranHandler cn as)) := by
  constructor
  · intro hpe
    have h1 : finishRun false c opts st parsedArgs =
        .missingRequired (missingNamesOf opts) := by
      unfold finishRun
      rw [hpe]
      simp [isHelpErr, hmiss]
    refine ⟨h1, ?_, ?_⟩
    · intro cn as
      rw [h1]
      simp
    · intro o2 ho2 hreq hs2
      unfold missingNamesOf
      exact List.mem_filterMap.mpr ⟨o2, ho2, by rw [if_pos ⟨hreq, hs2⟩]⟩
  · intro hpe hraw hver
    have h1 : finishRun false c opts st parsedArgs =
        helpOutcome c (parsedArgs.drop st.commandDepth) := by
      unfold finishRun
      rw [hpe]
      simp [isHelpErr, argsOf, hraw, dispatchTail, hver, hpe]
    refine ⟨h1, ?_, ?_⟩
    · intro names
      rw [h1]
      rcases helpOutcome_cases c (parsedArgs.drop st.commandDepth) with h2 | h2 | h2 <;>
        rw [h2] <;> simp
    · intro cn as
      rw [h1]
      rcases helpOutcome_cases c (parsedArgs.drop st.commandDepth) with h2 | h2 | h2 <;>
        rw [h2] <;> simp

/-- A childless subcommand, dispatch input of the unknown-subcommand run. -/
def subCmd : Cmd := ⟨"sub", [], [], [], false, "", true, false, []⟩

/-- A root command owning `{sub}`, with no handler of its own, accepting no
raw arguments. -/
def rootCmd : Cmd := ⟨"root", [], [], [subCmd], false, "", false, false, []⟩

/-- C9.  Running the argument vector `["bogus"]` against a root command whose
children are `{sub}` and which accepts no raw or positional arguments yields
the distinguished `UnknownSubcommandError` outcome carrying exactly
`["bogus"]`. -/
theorem C9_unknown_subcommand :
    runCmd (fun _ _ => true) [] false rootCmd ["bogus"] (fun _ => "") 2 =
      .unknownSubcommand ["bogus"] := by
  decide

/-- A slot predicate accepting every raw string (witness input). -/
def wOkAll : SetOk := fun _ _ => true

/-- A slot predicate rejecting every raw string (witness input). -/
def wOkNone : SetOk := fun _ _ => false

/-- An all-empty value store (witness input). -/
def wStore : Vals := fun _ => ""

/-- A flag-and-default option (witness input). -/
def wOptA : Opt := { flag := "f", defVal := "d" }

theorem C1_precedence_law_witness :
    ((resolveNode wOkAll [] [] false [wOptA] wStore [] [] [] Option.none).opts.getD 0
        {}).valueSource =
      highestSuppliedSource wOptA
        (resolveNode wOkAll [] [] false [wOptA] wStore [] [] [] Option.none).changed
        [] [] :=
  (C1_precedence_law wOkAll [] [] ⟨[wOptA], wStore⟩ [] 0 wOptA _ (by decide) rfl
    (by decide) (by decide) (by decide) (fun _ _ => rfl) rfl).1

/-- A freshly declared flag (witness input). -/
def wFlagNew : PFlag := { name := "n" }

theorem C2_flag_override_witness :
    lookupFlag (mergeFlags [] [wFlagNew]) wFlagNew.name = Option.some wFlagNew ∧
      (mergeFlags [] [wFlagNew]).filter (fun g => g.name == wFlagNew.name) =
        [wFlagNew] :=
  (C2_flag_override [] [wFlagNew] (by decide)).1 wFlagNew (by decide)

/-- A required option with no source bound (witness input). -/
def wReqOpt : Opt := { name := "file", flag := "file", required := true }

/-- A plain command with a handler (witness input). -/
def wCmdPlain : Cmd := ⟨"root", [], [], [], false, "", true, false, []⟩

theorem C3_missing_required_and_help_suppression_witness :
    (finishRun false wCmdPlain [wReqOpt] ⟨[], 0, Option.none, [], []⟩ [] =
      .missingRequired (missingNamesOf [wReqOpt])) ∧
    (finishRun false wCmdPlain [wReqOpt] ⟨[], 0, Option.some .help, [], []⟩ [] =
      helpOutcome wCmdPlain (([] : List String).drop 0)) :=
  ⟨((C3_missing_required_and_help_suppression wCmdPlain [wReqOpt]
      ⟨[], 0, Option.none, [], []⟩ [] (by decide)).1 rfl).1,
   ((C3_missing_required_and_help_suppression wCmdPlain [wReqOpt]
      ⟨[], 0, Option.some .help, [], []⟩ [] (by decide)).2 rfl rfl rfl).1⟩

/-- An aliased option defaulting to `"a"` (witness input). -/
def wDefA : Opt := { defVal := "a" }

/-- An aliased option defaulting to `"b"` (witness input). -/
def wDefB : Opt := { defVal := "b" }

theorem C4_default_conflict_witness :
    (SetDefaults wOkAll ⟨[wDefA, wDefB], wStore⟩).2 ≠ [] ∧
      (SetDefaults wOkAll ⟨[wDefA, wDefA], wStore⟩).2 = [] :=
  ⟨(C4_default_conflict wOkAll ⟨[wDefA, wDefB], wStore⟩ 0 (by decide) (by decide)
      (by decide)).1 ⟨wDefA, by decide, wDefB, by decide, by decide, by decide, by decide⟩,
   (C4_default_conflict wOkAll ⟨[wDefA, wDefA], wStore⟩ 0 (by decide) (by decide)
      (by decide)).2 (by decide) (fun _ => rfl)⟩

/-- An option bound to the environment variable `FOO` (witness input). -/
def wEnvOpt : Opt := { name := "e", env := "FOO" }

theorem C5_env_fallback_empty_unset_witness :
    (((ParseEnv wOkAll [⟨"HOMEBREW_FOO", "bar"⟩] ⟨[wEnvOpt], wStore⟩).1.opts.getD 0
        {}).valueSource = .env ∧
      (ParseEnv wOkAll [⟨"HOMEBREW_FOO", "bar"⟩] ⟨[wEnvOpt], wStore⟩).1.vals
        wEnvOpt.valueId = "bar") ∧
    ((SetDefaults wOkAll
        (ParseEnv wOkAll [⟨"FOO", ""⟩] ⟨[wEnvOpt], wStore⟩).1).1.opts.getD 0
        {}).valueSource = .none :=
  ⟨(C5_env_fallback_empty_unset wOkAll [⟨"HOMEBREW_FOO", "bar"⟩]
      ⟨[wEnvOpt], wStore⟩ 0 wEnvOpt (by decide) rfl (by decide) (by decide)).1
      "bar" (by decide) (by decide) (by decide) rfl,
   (C5_env_fallback_empty_unset wOkAll [⟨"FOO", ""⟩]
      ⟨[wEnvOpt], wStore⟩ 0 wEnvOpt (by decide) rfl (by decide) (by decide)).2
      (by decide) rfl rfl⟩

/-- First member of an aliased pair on slot 5, carrying the default (witness
input). -/
def wAl1 : Opt := { name := "a", defVal := "x", valueId := 5 }

/-- Second member of the aliased pair on slot 5 (witness input). -/
def wAl2 : Opt := { name := "b", valueId := 5 }

/-- The first member after resolution (witness input). -/
def wAl1r : Opt := { name := "a", defVal := "x", valueId := 5, valueSource := .default }

/-- The second member after resolution (witness input). -/
def wAl2r : Opt := { name := "b", valueId := 5, valueSource := .default }

theorem C6_aliases_report_same_source_witness :
    wAl1r.valueSource = wAl2r.valueSource :=
  C6_aliases_report_same_source wOkAll [] ⟨[wAl1, wAl2], wStore⟩ wAl1r wAl2r
    (by decide) (by decide) rfl

/-- An already-resolved option (witness input). -/
def wRes1 : Opt := { name := "a", valueSource := .flag }

theorem C7_setdefaults_idempotent_witness :
    (SetDefaults wOkAll ⟨[wRes1], wStore⟩).1.opts = [wRes1] ∧
      (SetDefaults wOkAll ⟨[wRes1], wStore⟩).1.vals = wStore ∧
      (SetDefaults wOkAll ⟨[wRes1], wStore⟩).2 = [] :=
  C7_setdefaults_idempotent wOkAll ⟨[wRes1], wStore⟩ (by decide) (by decide)

theorem C10_parseenv_marks_before_set_witness :
    ((ParseEnv wOkNone [⟨"FOO", "bad"⟩] ⟨[wEnvOpt], wStore⟩).1.opts.getD 0
        {}).valueSource = .env ∧
      ("parse " ++ wEnvOpt.name) ∈
        (ParseEnv wOkNone [⟨"FOO", "bad"⟩] ⟨[wEnvOpt], wStore⟩).2 :=
  C10_parseenv_marks_before_set wOkNone [⟨"FOO", "bad"⟩] ⟨[wEnvOpt], wStore⟩
    0 wEnvOpt "bad" (by decide) rfl (by decide) rfl

end Serpent
